import Mathlib

/-!
Verification development for the express-async-rate-cache repository.

The development shallowly embeds the three core components of the source:

* `LRUCache` — the TTL/LRU cache of `src/cache/LRUCache.ts`;
* `RateLimiterState` / `rlCheck` — the dual-window fixed-counter rate
  limiter of `src/middleware/rateLimiter.ts`;
* `SysState` / `sysStep` — the coalescing fetch queue of
  `src/services/DatabaseService.ts` together with the cache-population
  behaviour of the `GET /users/:id` route (`src/routes/users.ts`).

JavaScript `Map` objects are embedded as insertion-ordered association
lists: `get` returns the first binding, `set` overwrites in place when the
key is present and appends otherwise, `delete` removes the binding, and
iteration order is list order.  Timestamps (`Date.now()`) are passed as
explicit `Nat` arguments.  Machine-level details the claims do not touch
(response-time sampling, uuid generation, HTTP rendering) are omitted.
-/

/-- Lookup in an insertion-ordered association list, as JavaScript
`Map.prototype.get`: the first binding for the key, if any. -/
def mapGet {κ α : Type} [DecidableEq κ] : List (κ × α) → κ → Option α
  | [], _ => none
  | (k', v) :: rest, k => if k' = k then some v else mapGet rest k

/-- Deletion from an association list, as `Map.prototype.delete`: removes
the binding for the key (a JavaScript `Map` holds at most one) and keeps
the order of the rest. -/
def mapDelete {κ α : Type} [DecidableEq κ] : List (κ × α) → κ → List (κ × α)
  | [], _ => []
  | p :: rest, k => if p.1 = k then rest else p :: mapDelete rest k

/-- Membership test, as `Map.prototype.has`. -/
def mapHas {κ α : Type} [DecidableEq κ] (m : List (κ × α)) (k : κ) : Bool :=
  (mapGet m k).isSome

/-- Insertion, as `Map.prototype.set`: overwrite in place when the key is
present, append at the end otherwise. -/
def mapSet {κ α : Type} [DecidableEq κ] (m : List (κ × α)) (k : κ) (v : α) : List (κ × α) :=
  if mapHas m k then m.map (fun p => if p.1 = k then (k, v) else p)
  else m ++ [(k, v)]

/-- Keys of an association list in iteration order. -/
def mapKeys {κ α : Type} (m : List (κ × α)) : List κ :=
  m.map Prod.fst

/-- Entry stored in the cache; mirrors `CacheEntry` of `src/types/index.ts`
(`timestamp` is the insertion time, `lastAccessed` the last hit time). -/
structure CacheEntry (V : Type) where
  value : V
  timestamp : Nat
  accessCount : Nat
  lastAccessed : Nat
  deriving DecidableEq

/-- Statistics structure; mirrors `CacheStats` of `src/types/index.ts`
minus the response-time average, which no claim concerns. -/
structure CacheStats where
  hits : Nat
  misses : Nat
  currentSize : Nat
  maxSize : Nat
  totalRequests : Nat
  deriving DecidableEq

/-- The LRU cache of `src/cache/LRUCache.ts`: a JavaScript `Map` (embedded
as an insertion-ordered association list), the configured capacity and
TTL, and the running statistics. -/
structure LRUCache (V : Type) where
  cache : List (String × CacheEntry V)
  maxSize : Nat
  ttl : Nat
  stats : CacheStats
  deriving DecidableEq

/-- Cache state produced by the constructor `new LRUCache(maxSize, ttlMs)`. -/
def LRUCache.empty (V : Type) (maxSize ttl : Nat) : LRUCache V :=
  { cache := []
    maxSize := maxSize
    ttl := ttl
    stats :=
      { hits := 0
        misses := 0
        currentSize := 0
        maxSize := maxSize
        totalRequests := 0 } }

/-- Embedding of `LRUCache.get` (lines 30–64 of `src/cache/LRUCache.ts`):
counts the request, treats an absent key as a miss, lazily deletes an
entry whose age strictly exceeds the TTL (counting a miss), and on a hit
refreshes `lastAccessed`/`accessCount` and moves the entry to the
most-recently-used (last) position. -/
def LRUCache.get {V : Type} (c : LRUCache V) (k : String) (now : Nat) :
    Option V × LRUCache V :=
  let c := { c with stats := { c.stats with totalRequests := c.stats.totalRequests + 1 } }
  match mapGet c.cache k with
  | none => (none, { c with stats := { c.stats with misses := c.stats.misses + 1 } })
  | some entry =>
    if c.ttl < now - entry.timestamp then
      (none, { c with
        cache := mapDelete c.cache k
        stats := { c.stats with
          currentSize := c.stats.currentSize - 1
          misses := c.stats.misses + 1 } })
    else
      let entry := { entry with lastAccessed := now, accessCount := entry.accessCount + 1 }
      (some entry.value, { c with
        cache := mapSet (mapDelete c.cache k) k entry
        stats := { c.stats with hits := c.stats.hits + 1 } })

/-- Embedding of `LRUCache.set` (lines 66–91): overwrite an existing key
in MRU position; for a new key at capacity, evict the first key of the
map — guarded by the JavaScript truthiness test `if (firstKey)`, which is
false for the empty string as well as for an empty map. -/
def LRUCache.set {V : Type} (c : LRUCache V) (k : String) (v : V) (now : Nat) :
    LRUCache V :=
  let entry : CacheEntry V := { value := v, timestamp := now, accessCount := 1,
                                lastAccessed := now }
  let c :=
    if mapHas c.cache k then
      { c with cache := mapDelete c.cache k }
    else
      let c :=
        if c.maxSize ≤ c.cache.length then
          match c.cache with
          | [] => c
          | (k₀, _) :: _ =>
            if k₀ = "" then c
            else { c with
              cache := mapDelete c.cache k₀
              stats := { c.stats with currentSize := c.stats.currentSize - 1 } }
        else c
      { c with stats := { c.stats with currentSize := c.stats.currentSize + 1 } }
  { c with cache := mapSet c.cache k entry }

/-- Embedding of `LRUCache.delete` (lines 93–99). -/
def LRUCache.delete {V : Type} (c : LRUCache V) (k : String) : Bool × LRUCache V :=
  if mapHas c.cache k then
    (true, { c with
      cache := mapDelete c.cache k
      stats := { c.stats with currentSize := c.stats.currentSize - 1 } })
  else (false, c)

/-- Embedding of `LRUCache.clear` (lines 101–109). -/
def LRUCache.clear {V : Type} (c : LRUCache V) : LRUCache V :=
  { c with
    cache := []
    stats :=
      { c.stats with
        hits := 0
        misses := 0
        currentSize := 0
        totalRequests := 0 } }

/-- Embedding of `LRUCache.has` (lines 111–124): same lazy-expiry check as
`get` (an expired entry is deleted and `currentSize` decremented) but no
hit/miss/request accounting and no recency update. -/
def LRUCache.has {V : Type} (c : LRUCache V) (k : String) (now : Nat) :
    Bool × LRUCache V :=
  match mapGet c.cache k with
  | none => (false, c)
  | some entry =>
    if c.ttl < now - entry.timestamp then
      (false, { c with
        cache := mapDelete c.cache k
        stats := { c.stats with currentSize := c.stats.currentSize - 1 } })
    else (true, c)

/-- Embedding of the periodic sweep `LRUCache.cleanupExpired`
(lines 130–148): removes every entry whose age strictly exceeds the TTL,
decrementing `currentSize` once per removed entry. -/
def LRUCache.cleanupExpired {V : Type} (c : LRUCache V) (now : Nat) : LRUCache V :=
  let expired := c.cache.filter (fun p => decide (c.ttl < now - p.2.timestamp))
  { c with
    cache := c.cache.filter (fun p => !decide (c.ttl < now - p.2.timestamp))
    stats := { c.stats with currentSize := c.stats.currentSize - expired.length } }

/-- One externally invocable cache operation, with its `Date.now()` value
where the source consults the clock. -/
inductive CacheOp (V : Type) where
  | get (k : String) (now : Nat)
  | set (k : String) (v : V) (now : Nat)
  | delete (k : String)
  | clear
  | has (k : String) (now : Nat)
  | cleanup (now : Nat)

/-- Applying one operation to a cache state. -/
def applyOp {V : Type} (c : LRUCache V) : CacheOp V → LRUCache V
  | .get k now => (c.get k now).2
  | .set k v now => c.set k v now
  | .delete k => (c.delete k).2
  | .clear => c.clear
  | .has k now => (c.has k now).2
  | .cleanup now => c.cleanupExpired now

/-- Running a sequence of operations left to right. -/
def runOps {V : Type} (c : LRUCache V) : List (CacheOp V) → LRUCache V
  | [] => c
  | op :: rest => runOps (applyOp c op) rest

/-- The clock value an operation carries, if it consults the clock. -/
def opNow {V : Type} : CacheOp V → Option Nat
  | .get _ n => some n
  | .set _ _ n => some n
  | .has _ n => some n
  | .cleanup n => some n
  | _ => none

/-- Key discipline for one operation: `set` is called with a non-empty
key (JavaScript truthiness makes the empty string behave like `undefined`
in the eviction guard). -/
def opKeyOk {V : Type} : CacheOp V → Bool
  | .set k _ _ => !decide (k = "")
  | _ => true

/-- Well-formed trace: all `set` keys non-empty, and the clock values are
non-decreasing starting from the given watermark. -/
def wfTrace {V : Type} : Nat → List (CacheOp V) → Bool
  | _, [] => true
  | hwm, op :: rest =>
    opKeyOk op &&
    match opNow op with
    | some n => decide (hwm ≤ n) && wfTrace n rest
    | none => wfTrace hwm rest

/-- Clock watermark after a trace. -/
def traceHwm {V : Type} : Nat → List (CacheOp V) → Nat
  | hwm, [] => hwm
  | hwm, op :: rest => traceHwm ((opNow op).getD hwm) rest

/-- Per-client rate-limit state; mirrors `RateLimitInfo` of
`src/types/index.ts`. -/
structure RateLimitInfo where
  count : Nat
  resetTime : Nat
  burstCount : Nat
  burstResetTime : Nat
  deriving DecidableEq

/-- Configuration of the rate limiter (constructor arguments of
`RateLimiter` in `src/middleware/rateLimiter.ts`). -/
structure RLConfig where
  maxRequests : Nat
  windowMs : Nat
  burstCapacity : Nat
  burstWindowMs : Nat
  deriving DecidableEq

/-- Outcome of one middleware check: allowed, or denied with the
`retryAfter` seconds value of the corresponding 429 response. -/
inductive RLResult where
  | allowed
  | deniedBurst (retryAfter : Nat)
  | deniedWindow (retryAfter : Nat)
  deriving DecidableEq

/-- The window-reset and counting logic of `RateLimiter.middleware`
(lines 29–103 of `src/middleware/rateLimiter.ts`) applied to one client's
record: expired windows are reset, the burst gate is evaluated first,
then the long-window gate, and only an allowed request increments the two
counters. -/
def checkInfo (cfg : RLConfig) (info : RateLimitInfo) (now : Nat) :
    RLResult × RateLimitInfo :=
  let info :=
    if info.resetTime ≤ now then
      { info with count := 0, resetTime := now + cfg.windowMs }
    else info
  let info :=
    if info.burstResetTime ≤ now then
      { info with burstCount := 0, burstResetTime := now + cfg.burstWindowMs }
    else info
  if cfg.burstCapacity ≤ info.burstCount then
    (.deniedBurst ((info.burstResetTime - now + 999) / 1000), info)
  else if cfg.maxRequests ≤ info.count then
    (.deniedWindow ((info.resetTime - now + 999) / 1000), info)
  else
    (.allowed, { info with count := info.count + 1, burstCount := info.burstCount + 1 })

/-- The client map of the `RateLimiter` instance. -/
structure RateLimiterState where
  clients : List (String × RateLimitInfo)
  deriving DecidableEq

/-- One middleware invocation for a client: a missing record is created
fresh (and stored), then `checkInfo` runs and its updated record is what
the map holds afterwards (the source mutates the stored object in
place). -/
def rlCheck (cfg : RLConfig) (s : RateLimiterState) (clientId : String) (now : Nat) :
    RLResult × RateLimiterState :=
  let info := (mapGet s.clients clientId).getD
    { count := 0, resetTime := now + cfg.windowMs, burstCount := 0,
      burstResetTime := now + cfg.burstWindowMs }
  let r := checkInfo cfg info now
  (r.1, { clients := mapSet s.clients clientId r.2 })

/-- The periodic sweep `RateLimiter.cleanupExpired` (lines 111–129):
discards clients whose two reset times are both in the past. -/
def rlCleanup (s : RateLimiterState) (now : Nat) : RateLimiterState :=
  { clients := s.clients.filter
      (fun p => !(decide (p.2.resetTime ≤ now) && decide (p.2.burstResetTime ≤ now))) }

/-- One externally triggered rate-limiter event. -/
inductive RLOp where
  | check (clientId : String) (now : Nat)
  | cleanup (now : Nat)

/-- Applying one rate-limiter event. -/
def rlApply (cfg : RLConfig) (s : RateLimiterState) : RLOp → RateLimiterState
  | .check cid now => (rlCheck cfg s cid now).2
  | .cleanup now => rlCleanup s now

/-- Running a sequence of rate-limiter events from the empty client map. -/
def rlRun (cfg : RLConfig) : List RLOp → RateLimiterState → RateLimiterState
  | [], s => s
  | op :: rest, s => rlRun cfg rest (rlApply cfg s op)

/-- A queued request for a user; mirrors `QueueJob` of
`src/types/index.ts`, with the uuid replaced by a numeric job identifier
and the resolve/reject callbacks represented by completion events. -/
structure Job where
  jobId : Nat
  userId : Nat
  deriving DecidableEq

/-- Observable events of a fetch cycle: one `lookup` per consultation of
the mock user table, one `resolveJob`/`rejectJob` per waiter completion
(`rejectJob u` carries the user id named by the `NotFoundError`), and one
`cacheSet` per `userCache.set` performed by a route handler after its
awaited promise settles. -/
inductive Event where
  | lookup (userId : Nat)
  | resolveJob (jobId : Nat) (value : Nat)
  | rejectJob (jobId : Nat) (userId : Nat)
  | cacheSet (jobId : Nat) (userId : Nat) (value : Nat)
  deriving DecidableEq

/-- Cache key built by the route for a user id (`user:` followed by the
decimal id, as in `src/routes/users.ts`). -/
def userKey (u : Nat) : String :=
  "user:" ++ toString u

/-- Combined state of `DatabaseService` and the shared user cache:
`processingQueue` and `pendingRequests` as in the source, `inFlight`
modelling the job shifted off the queue whose simulated database delay
has not yet elapsed (`isProcessing === true`), the fixed `mockUsers`
table (user id mapped to the value the model stores for it), and the
route-owned `LRUCache`. -/
structure SysState where
  processingQueue : List Job
  pendingRequests : List (Nat × List Job)
  inFlight : Option Job
  users : List (Nat × Nat)
  cache : LRUCache Nat
  deriving DecidableEq

/-- Initial state: empty queue, no pending groups, idle worker. -/
def SysState.init (users : List (Nat × Nat)) (cache : LRUCache Nat) : SysState :=
  { processingQueue := []
    pendingRequests := []
    inFlight := none
    users := users
    cache := cache }

/-- Embedding of `DatabaseService.getUserById` (lines 171–197 of the
service): when a pending group for the user already exists the job joins
it and nothing is enqueued; otherwise a fresh singleton group is created
and the job is appended to the processing queue. -/
def fetchStep (s : SysState) (j : Job) : SysState :=
  match mapGet s.pendingRequests j.userId with
  | some g => { s with pendingRequests := mapSet s.pendingRequests j.userId (g ++ [j]) }
  | none =>
    { s with
      pendingRequests := mapSet s.pendingRequests j.userId [j]
      processingQueue := s.processingQueue ++ [j] }

/-- Start of one `processQueue` interval tick (lines 221–241): a no-op
when the worker is busy or the queue is empty, otherwise the head job is
shifted off the queue and becomes the in-flight job (`isProcessing`
set). -/
def beginStep (s : SysState) : SysState :=
  if s.inFlight.isSome then s
  else
    match s.processingQueue with
    | [] => s
    | j :: rest => { s with processingQueue := rest, inFlight := some j }

/-- The cache writes performed by the suspended route handlers once their
promises settle: each waiter executes `userCache.set` for the fetched
user, in completion order (`now` stands for the `Date.now()` of those
writes). -/
def cacheSetAll (c : LRUCache Nat) (u v : Nat) : List Job → Nat → LRUCache Nat
  | [], _ => c
  | _ :: rest, now => cacheSetAll (c.set (userKey u) v now) u v rest now

/-- End of the in-flight job's processing (`processJob`, lines 243–265,
and `resolveAllPendingRequests`/`rejectAllPendingRequests`,
lines 267–291): the mock table is consulted once; on a miss every waiter
of the group is rejected with the same `NotFoundError` and the group is
removed; on success every waiter is resolved with the same user in FIFO
attachment order, the group is removed, and each resumed route handler
then stores the user in the cache. -/
def finishStep (s : SysState) (now : Nat) : SysState × List Event :=
  match s.inFlight with
  | none => (s, [])
  | some j =>
    let u := j.userId
    let g := (mapGet s.pendingRequests u).getD []
    match mapGet s.users u with
    | none =>
      ({ s with pendingRequests := mapDelete s.pendingRequests u, inFlight := none },
       Event.lookup u :: g.map (fun jb => Event.rejectJob jb.jobId u))
    | some v =>
      ({ s with
          pendingRequests := mapDelete s.pendingRequests u
          inFlight := none
          cache := cacheSetAll s.cache u v g now },
       Event.lookup u ::
         (g.map (fun jb => Event.resolveJob jb.jobId v) ++
          g.map (fun jb => Event.cacheSet jb.jobId u v)))

/-- One step of the combined system. -/
inductive DBOp where
  | fetch (jobId userId : Nat)
  | beginTick
  | finishTick (now : Nat)

/-- Applying one system step, returning the events it emits. -/
def sysStep (s : SysState) : DBOp → SysState × List Event
  | .fetch jobId userId => (fetchStep s { jobId := jobId, userId := userId }, [])
  | .beginTick => (beginStep s, [])
  | .finishTick now => finishStep s now

/-- Running a sequence of system steps, concatenating their event
traces. -/
def sysRun : List DBOp → SysState → SysState × List Event
  | [], s => (s, [])
  | op :: rest, s =>
    let r := sysStep s op
    let r' := sysRun rest r.1
    (r'.1, r.2 ++ r'.2)

/-- The fetch operations of a batch of job ids for one user. -/
def fetchOps (js : List Nat) (u : Nat) : List DBOp :=
  js.map (fun j => DBOp.fetch j u)

/-- Whether an event is a backing-store consultation. -/
def isLookup : Event → Bool
  | .lookup _ => true
  | _ => false

/-- Whether an event is a waiter completion (resolution or rejection). -/
def isCompletion : Event → Bool
  | .resolveJob _ _ => true
  | .rejectJob _ _ => true
  | _ => false

/-- True when, scanning the trace, no waiter completion occurs before the
first cache population (the ordering the specification prescribes for a
successful fetch cycle). -/
def populateBeforeComplete : List Event → Bool
  | [] => true
  | Event.cacheSet _ _ _ :: _ => true
  | Event.resolveJob _ _ :: _ => false
  | Event.rejectJob _ _ :: _ => false
  | _ :: rest => populateBeforeComplete rest



section InvariantDefs

variable {V : Type}

/-- Structural well-formedness of a cache state: the map keys are
distinct (as in a JavaScript `Map`) and the `currentSize` statistic
counts exactly the stored entries. -/
structure CacheWF (c : LRUCache V) : Prop where
  nodup : (mapKeys c.cache).Nodup
  size_eq : c.stats.currentSize = c.cache.length

/-- The recency order the entries list carries: non-decreasing
`lastAccessed` along iteration order (head = least recently used). -/
def RecencySorted (l : List (String × CacheEntry V)) : Prop :=
  l.Pairwise (fun a b => a.2.lastAccessed ≤ b.2.lastAccessed)

/-- All stored `lastAccessed` stamps are at most the clock watermark. -/
def entriesBdd (l : List (String × CacheEntry V)) (n : Nat) : Prop :=
  ∀ p ∈ l, p.2.lastAccessed ≤ n

/-- Invariant of every cache state reachable by a well-formed trace:
structural well-formedness, the capacity bound, no empty-string keys, the
entries list sorted by last access, and all stamps below the clock
watermark. -/
structure CacheGood (c : LRUCache V) (hwm : Nat) : Prop where
  wf : CacheWF c
  size_le : c.cache.length ≤ c.maxSize
  ne_keys : ∀ p ∈ c.cache, p.1 ≠ ""
  sorted : RecencySorted c.cache
  bdd : entriesBdd c.cache hwm

/-- The hit/miss accounting identity of the statistics. -/
def statsOk (c : LRUCache V) : Prop :=
  c.stats.hits + c.stats.misses = c.stats.totalRequests

/-- Number of entries of the cache map that are unexpired at the given
instant (the lazily evicted, already-expired ones are excluded). -/
def liveEntryCount (c : LRUCache V) (now : Nat) : Nat :=
  (c.cache.filter (fun p => !decide (c.ttl < now - p.2.timestamp))).length

/-- All per-client counters respect their capacities. -/
def rlBounded (cfg : RLConfig) (s : RateLimiterState) : Prop :=
  ∀ p ∈ s.clients, p.2.count ≤ cfg.maxRequests ∧ p.2.burstCount ≤ cfg.burstCapacity


end InvariantDefs

/-- Constructor shorthand for a queued job. -/
abbrev mkJob (j u : Nat) : Job :=
  { jobId := j, userId := u }

/-- User ids of the jobs sitting in the processing queue, in order. -/
def queueUserIds (s : SysState) : List Nat :=
  s.processingQueue.map Job.userId

/-- Invariant of every reachable coalescer state: queue keys are
distinct, pending keys are distinct, every queued job has a pending
group, every pending key is either queued or the one currently being
processed, the in-flight job always has a pending group and is no longer
queued, and pending groups are never empty. -/
structure SysInv (s : SysState) : Prop where
  nodupQ : (queueUserIds s).Nodup
  nodupP : (mapKeys s.pendingRequests).Nodup
  q_pend : ∀ j ∈ s.processingQueue, (mapGet s.pendingRequests j.userId).isSome = true
  p_cover : ∀ p ∈ s.pendingRequests,
    p.1 ∈ queueUserIds s ∨ (∃ j, s.inFlight = some j ∧ j.userId = p.1)
  flight_pend : ∀ j, s.inFlight = some j →
    (mapGet s.pendingRequests j.userId).isSome = true
  flight_not_q : ∀ j, s.inFlight = some j → j.userId ∉ queueUserIds s
  groups_ne : ∀ p ∈ s.pendingRequests, p.2 ≠ []


section MapLemmas

variable {κ α : Type} [DecidableEq κ]

theorem mapGet_eq_none_of_not_mem {m : List (κ × α)} {k : κ}
    (h : k ∉ mapKeys m) : mapGet m k = none := by
  induction m with
  | nil => rfl
  | cons p rest ih =>
    simp only [mapKeys, List.map_cons, List.mem_cons, not_or] at h
    have hp : p.1 ≠ k := fun hh => h.1 hh.symm
    simp only [mapGet, if_neg hp]
    exact ih h.2

theorem mem_of_mapGet_eq_some {m : List (κ × α)} {k : κ} {v : α}
    (h : mapGet m k = some v) : k ∈ mapKeys m := by
  by_contra hk
  rw [mapGet_eq_none_of_not_mem hk] at h
  exact Option.noConfusion h

theorem mem_of_mapHas {m : List (κ × α)} {k : κ}
    (h : mapHas m k = true) : k ∈ mapKeys m := by
  unfold mapHas at h
  cases hg : mapGet m k with
  | none => rw [hg] at h; simp [Option.isSome] at h
  | some v => exact mem_of_mapGet_eq_some hg

theorem not_mem_of_mapHas_eq_false {m : List (κ × α)} {k : κ}
    (h : mapHas m k = false) : k ∉ mapKeys m := by
  intro hk
  induction m with
  | nil => simp [mapKeys] at hk
  | cons p rest ih =>
    simp only [mapKeys, List.map_cons, List.mem_cons] at hk
    unfold mapHas mapGet at h
    by_cases hp : p.1 = k
    · rw [if_pos hp] at h
      simp [Option.isSome] at h
    · rw [if_neg hp] at h
      cases hk with
      | inl h1 => exact hp h1.symm
      | inr h2 => exact ih h h2

theorem mapHas_of_mapGet_eq_some {m : List (κ × α)} {k : κ} {v : α}
    (h : mapGet m k = some v) : mapHas m k = true := by
  unfold mapHas
  rw [h]
  rfl

theorem mapDelete_eq_self_of_not_mem {m : List (κ × α)} {k : κ}
    (h : k ∉ mapKeys m) : mapDelete m k = m := by
  induction m with
  | nil => rfl
  | cons p rest ih =>
    simp only [mapKeys, List.map_cons, List.mem_cons, not_or] at h
    have hp : p.1 ≠ k := fun hh => h.1 hh.symm
    simp only [mapDelete, if_neg hp]
    rw [ih h.2]

theorem mapKeys_mapDelete_subset {m : List (κ × α)} {k k' : κ}
    (h : k' ∈ mapKeys (mapDelete m k)) : k' ∈ mapKeys m := by
  induction m with
  | nil => simpa [mapDelete] using h
  | cons p rest ih =>
    simp only [mapDelete] at h
    by_cases hp : p.1 = k
    · rw [if_pos hp] at h
      simp only [mapKeys, List.map_cons, List.mem_cons]
      exact Or.inr h
    · rw [if_neg hp] at h
      simp only [mapKeys, List.map_cons, List.mem_cons] at h ⊢
      cases h with
      | inl h1 => exact Or.inl h1
      | inr h2 => exact Or.inr (ih h2)

theorem not_mem_mapKeys_mapDelete {m : List (κ × α)} {k : κ}
    (hnd : (mapKeys m).Nodup) : k ∉ mapKeys (mapDelete m k) := by
  induction m with
  | nil => simp [mapDelete, mapKeys]
  | cons p rest ih =>
    simp only [mapKeys, List.map_cons, List.nodup_cons] at hnd
    simp only [mapDelete]
    by_cases hp : p.1 = k
    · rw [if_pos hp]
      rw [← hp]
      exact hnd.1
    · rw [if_neg hp]
      simp only [mapKeys, List.map_cons, List.mem_cons, not_or]
      exact ⟨fun hh => hp hh.symm, ih hnd.2⟩

theorem mapGet_mapDelete_self {m : List (κ × α)} {k : κ}
    (hnd : (mapKeys m).Nodup) : mapGet (mapDelete m k) k = none :=
  mapGet_eq_none_of_not_mem (not_mem_mapKeys_mapDelete hnd)

theorem mapGet_mapDelete_ne {m : List (κ × α)} {k k' : κ} (h : k' ≠ k) :
    mapGet (mapDelete m k) k' = mapGet m k' := by
  induction m with
  | nil => rfl
  | cons p rest ih =>
    simp only [mapDelete]
    by_cases hp : p.1 = k
    · rw [if_pos hp]
      have hpk : p.1 ≠ k' := fun hh => h (hh ▸ hp)
      simp only [mapGet, if_neg hpk]
    · rw [if_neg hp]
      simp only [mapGet]
      by_cases hpk : p.1 = k'
      · rw [if_pos hpk, if_pos hpk]
      · rw [if_neg hpk, if_neg hpk]
        exact ih

theorem length_mapDelete_of_mem {m : List (κ × α)} {k : κ} {v : α}
    (h : mapGet m k = some v) : (mapDelete m k).length + 1 = m.length := by
  induction m with
  | nil => exact Option.noConfusion h
  | cons p rest ih =>
    simp only [mapGet] at h
    simp only [mapDelete]
    by_cases hp : p.1 = k
    · rw [if_pos hp]
      simp
    · rw [if_neg hp] at h ⊢
      simp only [List.length_cons]
      rw [← ih h]

theorem mapDelete_sublist (m : List (κ × α)) (k : κ) :
    (mapDelete m k).Sublist m := by
  induction m with
  | nil => simp [mapDelete]
  | cons p rest ih =>
    simp only [mapDelete]
    by_cases hp : p.1 = k
    · rw [if_pos hp]
      exact List.sublist_cons_self p rest
    · rw [if_neg hp]
      exact ih.cons₂ p

theorem mapSet_eq_append_of_not_has {m : List (κ × α)} {k : κ} (v : α)
    (h : mapHas m k = false) : mapSet m k v = m ++ [(k, v)] := by
  unfold mapSet
  rw [h]
  simp

theorem mapGet_append_left {m m' : List (κ × α)} {k : κ} {v : α}
    (h : mapGet m k = some v) : mapGet (m ++ m') k = some v := by
  induction m with
  | nil => exact Option.noConfusion h
  | cons p rest ih =>
    simp only [mapGet, List.cons_append] at h ⊢
    by_cases hp : p.1 = k
    · rw [if_pos hp] at h ⊢; exact h
    · rw [if_neg hp] at h ⊢; exact ih h

theorem mapGet_append_right {m m' : List (κ × α)} {k : κ}
    (h : mapGet m k = none) : mapGet (m ++ m') k = mapGet m' k := by
  induction m with
  | nil => rfl
  | cons p rest ih =>
    simp only [mapGet, List.cons_append] at h ⊢
    by_cases hp : p.1 = k
    · rw [if_pos hp] at h; exact Option.noConfusion h
    · rw [if_neg hp] at h ⊢; exact ih h

theorem mapGet_singleton_self (k : κ) (v : α) :
    mapGet [(k, v)] k = some v := by
  simp [mapGet]

theorem mapGet_mapSet_self (m : List (κ × α)) (k : κ) (v : α) :
    mapGet (mapSet m k v) k = some v := by
  unfold mapSet
  cases hh : mapHas m k with
  | false =>
    simp only [Bool.false_eq_true, if_false]
    rw [mapGet_append_right, mapGet_singleton_self]
    unfold mapHas at hh
    cases hg : mapGet m k with
    | none => rfl
    | some w => rw [hg] at hh; simp [Option.isSome] at hh
  | true =>
    simp only [if_true]
    unfold mapHas at hh
    induction m with
    | nil => simp [mapGet, Option.isSome] at hh
    | cons p rest ih =>
      simp only [mapGet] at hh
      simp only [List.map_cons]
      by_cases hp : p.1 = k
      · rw [if_pos hp]
        simp [mapGet]
      · rw [if_neg hp]
        rw [if_neg hp] at hh
        simp only [mapGet, if_neg hp]
        exact ih hh

theorem mapGet_replace_ne {m : List (κ × α)} {k k' : κ} (v : α) (h : k' ≠ k) :
    mapGet (m.map (fun p => if p.1 = k then (k, v) else p)) k' = mapGet m k' := by
  have hkk : k ≠ k' := fun hh => h hh.symm
  induction m with
  | nil => rfl
  | cons p rest ih =>
    simp only [List.map_cons]
    by_cases hp : p.1 = k
    · have hp' : p.1 ≠ k' := fun hh2 => h (hh2 ▸ hp)
      rw [if_pos hp]
      simp only [mapGet, if_neg hkk, if_neg hp']
      exact ih
    · rw [if_neg hp]
      simp only [mapGet]
      by_cases hpk : p.1 = k'
      · rw [if_pos hpk, if_pos hpk]
      · rw [if_neg hpk, if_neg hpk]
        exact ih

theorem mapGet_mapSet_ne {m : List (κ × α)} {k k' : κ} (v : α) (h : k' ≠ k) :
    mapGet (mapSet m k v) k' = mapGet m k' := by
  have hkk : k ≠ k' := fun hh => h hh.symm
  unfold mapSet
  cases hh : mapHas m k with
  | false =>
    simp only [Bool.false_eq_true, if_false]
    cases hg : mapGet m k' with
    | none =>
      rw [mapGet_append_right hg]
      simp [mapGet, hkk]
    | some w => exact mapGet_append_left hg
  | true =>
    simp only [if_true]
    exact mapGet_replace_ne v h

theorem mapKeys_mapSet_of_has {m : List (κ × α)} {k : κ} (v : α)
    (h : mapHas m k = true) : mapKeys (mapSet m k v) = mapKeys m := by
  unfold mapSet
  rw [h]
  simp only [if_true, mapKeys, List.map_map]
  apply List.map_congr_left
  intro p _
  by_cases hp : p.1 = k
  · simp [Function.comp, hp]
  · simp [Function.comp, hp]

end MapLemmas

section CacheLemmas

variable {V : Type}

theorem LRUCache.get_absent (c : LRUCache V) (k : String) (now : Nat)
    (h : mapGet c.cache k = none) :
    c.get k now = (none,
      { c with stats := { c.stats with
          totalRequests := c.stats.totalRequests + 1
          misses := c.stats.misses + 1 } }) := by
  simp only [LRUCache.get, h]

theorem LRUCache.get_expired (c : LRUCache V) (k : String) (now : Nat)
    (e : CacheEntry V) (h : mapGet c.cache k = some e) (hex : c.ttl < now - e.timestamp) :
    c.get k now = (none,
      { c with
        cache := mapDelete c.cache k
        stats := { c.stats with
          totalRequests := c.stats.totalRequests + 1
          currentSize := c.stats.currentSize - 1
          misses := c.stats.misses + 1 } }) := by
  simp only [LRUCache.get, h, if_pos hex]

theorem LRUCache.get_hit (c : LRUCache V) (k : String) (now : Nat)
    (e : CacheEntry V) (h : mapGet c.cache k = some e) (hex : ¬ c.ttl < now - e.timestamp) :
    c.get k now = (some e.value,
      { c with
        cache := mapSet (mapDelete c.cache k) k
          { e with lastAccessed := now, accessCount := e.accessCount + 1 }
        stats := { c.stats with
          totalRequests := c.stats.totalRequests + 1
          hits := c.stats.hits + 1 } }) := by
  simp only [LRUCache.get, h, if_neg hex]

theorem LRUCache.set_existing (c : LRUCache V) (k : String) (v : V) (now : Nat)
    (h : mapHas c.cache k = true) :
    c.set k v now = { c with
      cache := mapSet (mapDelete c.cache k) k
        { value := v, timestamp := now, accessCount := 1, lastAccessed := now } } := by
  simp only [LRUCache.set, h, if_true]

theorem LRUCache.set_new_room (c : LRUCache V) (k : String) (v : V) (now : Nat)
    (h : mapHas c.cache k = false) (hlen : ¬ c.maxSize ≤ c.cache.length) :
    c.set k v now = { c with
      cache := c.cache ++
        [(k, { value := v, timestamp := now, accessCount := 1, lastAccessed := now })]
      stats := { c.stats with currentSize := c.stats.currentSize + 1 } } := by
  simp only [LRUCache.set, h, Bool.false_eq_true, if_false, if_neg hlen]
  rw [mapSet_eq_append_of_not_has _ h]

theorem LRUCache.set_new_cap_nil (c : LRUCache V) (k : String) (v : V) (now : Nat)
    (hlen : c.maxSize ≤ c.cache.length) (hnil : c.cache = []) :
    c.set k v now = { c with
      cache := [(k, { value := v, timestamp := now, accessCount := 1, lastAccessed := now })]
      stats := { c.stats with currentSize := c.stats.currentSize + 1 } } := by
  have h0 : mapHas ([] : List (String × CacheEntry V)) k = false := rfl
  rw [hnil] at hlen
  simp only [LRUCache.set, hnil, h0, Bool.false_eq_true, if_false, if_pos hlen]
  simp [mapSet, mapHas, mapGet]

theorem LRUCache.set_new_cap_emptyHead (c : LRUCache V) (k : String) (v : V) (now : Nat)
    (h : mapHas c.cache k = false) (hlen : c.maxSize ≤ c.cache.length)
    (e₀ : CacheEntry V) (rest : List (String × CacheEntry V))
    (hcc : c.cache = ("", e₀) :: rest) :
    c.set k v now = { c with
      cache := c.cache ++
        [(k, { value := v, timestamp := now, accessCount := 1, lastAccessed := now })]
      stats := { c.stats with currentSize := c.stats.currentSize + 1 } } := by
  have h' := h
  rw [hcc] at h' hlen
  simp only [LRUCache.set, hcc, h', Bool.false_eq_true, if_false, if_pos hlen, if_pos rfl,
    ite_true]
  rw [mapSet_eq_append_of_not_has _ h']

theorem LRUCache.set_new_evict (c : LRUCache V) (k : String) (v : V) (now : Nat)
    (h : mapHas c.cache k = false) (hlen : c.maxSize ≤ c.cache.length)
    (k₀ : String) (e₀ : CacheEntry V) (rest : List (String × CacheEntry V))
    (hcc : c.cache = (k₀, e₀) :: rest) (hk₀ : k₀ ≠ "") :
    c.set k v now = { c with
      cache := rest ++
        [(k, { value := v, timestamp := now, accessCount := 1, lastAccessed := now })]
      stats := { c.stats with
        currentSize := c.stats.currentSize - 1 + 1 } } := by
  have h' := h
  rw [hcc] at h' hlen
  have hkrest : mapHas rest k = false := by
    cases hr : mapHas rest k with
    | false => rfl
    | true =>
      exfalso
      have hmem := mem_of_mapHas hr
      have hnm := not_mem_of_mapHas_eq_false h'
      simp only [mapKeys, List.map_cons, List.mem_cons, not_or] at hnm
      exact hnm.2 hmem
  simp only [LRUCache.set, hcc, h', Bool.false_eq_true, if_false, if_pos hlen,
    if_neg hk₀, mapDelete, if_pos rfl, ite_true]
  rw [mapSet_eq_append_of_not_has _ hkrest]

theorem LRUCache.has_absent (c : LRUCache V) (k : String) (now : Nat)
    (h : mapGet c.cache k = none) :
    c.has k now = (false, c) := by
  simp only [LRUCache.has, h]

theorem LRUCache.has_expired (c : LRUCache V) (k : String) (now : Nat)
    (e : CacheEntry V) (h : mapGet c.cache k = some e) (hex : c.ttl < now - e.timestamp) :
    c.has k now = (false,
      { c with
        cache := mapDelete c.cache k
        stats := { c.stats with currentSize := c.stats.currentSize - 1 } }) := by
  simp only [LRUCache.has, h, if_pos hex]

theorem LRUCache.has_live (c : LRUCache V) (k : String) (now : Nat)
    (e : CacheEntry V) (h : mapGet c.cache k = some e) (hex : ¬ c.ttl < now - e.timestamp) :
    c.has k now = (true, c) := by
  simp only [LRUCache.has, h, if_neg hex]

theorem filter_length_split (l : List (String × CacheEntry V))
    (p : String × CacheEntry V → Bool) :
    (l.filter p).length + (l.filter (fun a => !(p a))).length = l.length := by
  induction l with
  | nil => rfl
  | cons a rest ih =>
    cases hp : p a with
    | true =>
      have h1 : (a :: rest).filter p = a :: rest.filter p := by
        simp [List.filter_cons, hp]
      have h2 : (a :: rest).filter (fun x => !(p x)) = rest.filter (fun x => !(p x)) := by
        simp [List.filter_cons, hp]
      rw [h1, h2]
      simp only [List.length_cons]
      omega
    | false =>
      have h1 : (a :: rest).filter p = rest.filter p := by
        simp [List.filter_cons, hp]
      have h2 : (a :: rest).filter (fun x => !(p x)) = a :: rest.filter (fun x => !(p x)) := by
        simp [List.filter_cons, hp]
      rw [h1, h2]
      simp only [List.length_cons]
      omega

end CacheLemmas

section CacheInvariants

variable {V : Type}

/-- Keys of a deleted map form a sublist of the original keys. -/
theorem mapKeys_sublist_mapDelete {κ α : Type} [DecidableEq κ] (m : List (κ × α)) (k : κ) :
    (mapKeys (mapDelete m k)).Sublist (mapKeys m) :=
  (mapDelete_sublist m k).map Prod.fst

/-- Appending a fresh key preserves distinctness of keys. -/
theorem nodup_mapKeys_append_singleton {κ α : Type} [DecidableEq κ]
    {m : List (κ × α)} {k : κ} (v : α)
    (hnd : (mapKeys m).Nodup) (hk : k ∉ mapKeys m) :
    (mapKeys (m ++ [(k, v)])).Nodup := by
  simp only [mapKeys, List.map_append, List.map_cons, List.map_nil]
  rw [List.nodup_append]
  refine ⟨hnd, List.nodup_singleton k, ?_⟩
  intro a ha hb
  simp only [List.mem_singleton] at hb
  exact hk (hb ▸ ha)


theorem cacheWF_empty (maxSize ttl : Nat) : CacheWF (LRUCache.empty V maxSize ttl) :=
  ⟨List.nodup_nil, rfl⟩

theorem cacheWF_get {c : LRUCache V} (w : CacheWF c) (k : String) (now : Nat) :
    CacheWF (c.get k now).2 := by
  cases hg : mapGet c.cache k with
  | none =>
    rw [LRUCache.get_absent c k now hg]
    exact ⟨w.nodup, w.size_eq⟩
  | some e =>
    by_cases hex : c.ttl < now - e.timestamp
    · rw [LRUCache.get_expired c k now e hg hex]
      refine ⟨((mapKeys_sublist_mapDelete c.cache k).nodup w.nodup), ?_⟩
      have hlen := length_mapDelete_of_mem hg
      have hsz := w.size_eq
      simp only
      omega
    · rw [LRUCache.get_hit c k now e hg hex]
      have hnone : mapGet (mapDelete c.cache k) k = none := mapGet_mapDelete_self w.nodup
      have hhas : mapHas (mapDelete c.cache k) k = false := by
        unfold mapHas
        rw [hnone]
        rfl
      have happ := mapSet_eq_append_of_not_has
        (m := mapDelete c.cache k) (k := k)
        { e with lastAccessed := now, accessCount := e.accessCount + 1 } hhas
      constructor
      · simp only [happ]
        exact nodup_mapKeys_append_singleton _
          ((mapKeys_sublist_mapDelete c.cache k).nodup w.nodup)
          (not_mem_mapKeys_mapDelete w.nodup)
      · have hlen := length_mapDelete_of_mem hg
        have hsz := w.size_eq
        simp only [happ, List.length_append, List.length_cons, List.length_nil]
        omega

theorem cacheWF_set {c : LRUCache V} (w : CacheWF c) (k : String) (v : V) (now : Nat) :
    CacheWF (c.set k v now) := by
  cases hh : mapHas c.cache k with
  | true =>
    obtain ⟨e, hg⟩ : ∃ e, mapGet c.cache k = some e := by
      unfold mapHas at hh
      cases hg : mapGet c.cache k with
      | none => rw [hg] at hh; simp [Option.isSome] at hh
      | some e => exact ⟨e, rfl⟩
    rw [LRUCache.set_existing c k v now hh]
    have hnone : mapGet (mapDelete c.cache k) k = none := mapGet_mapDelete_self w.nodup
    have hhas : mapHas (mapDelete c.cache k) k = false := by
      unfold mapHas; rw [hnone]; rfl
    have happ := mapSet_eq_append_of_not_has
      (m := mapDelete c.cache k) (k := k)
      { value := v, timestamp := now, accessCount := 1, lastAccessed := now } hhas
    constructor
    · simp only [happ]
      exact nodup_mapKeys_append_singleton _
        ((mapKeys_sublist_mapDelete c.cache k).nodup w.nodup)
        (not_mem_mapKeys_mapDelete w.nodup)
    · have hlen := length_mapDelete_of_mem hg
      have hsz := w.size_eq
      simp only [happ, List.length_append, List.length_cons, List.length_nil]
      omega
  | false =>
    have hknot : k ∉ mapKeys c.cache := not_mem_of_mapHas_eq_false hh
    by_cases hlen : c.maxSize ≤ c.cache.length
    · cases hcc : c.cache with
      | nil =>
        rw [LRUCache.set_new_cap_nil c k v now hlen hcc]
        have hsz := w.size_eq
        rw [hcc] at hsz
        simp only [List.length_nil] at hsz
        exact ⟨List.nodup_singleton k, by simp only [List.length_cons, List.length_nil]; omega⟩
      | cons p rest =>
        by_cases hk₀ : p.1 = ""
        · have hcc' : c.cache = ("", p.2) :: rest := by
            rw [hcc, ← hk₀]
          rw [LRUCache.set_new_cap_emptyHead c k v now hh hlen p.2 rest hcc']
          constructor
          · exact nodup_mapKeys_append_singleton _ w.nodup hknot
          · have hsz := w.size_eq
            simp only [List.length_append, List.length_cons, List.length_nil]
            omega
        · have hcc' : c.cache = (p.1, p.2) :: rest := by rw [hcc]
          rw [LRUCache.set_new_evict c k v now hh hlen p.1 p.2 rest hcc' hk₀]
          have hrestnd : (mapKeys rest).Nodup := by
            have := w.nodup
            rw [hcc'] at this
            simp only [mapKeys, List.map_cons, List.nodup_cons] at this
            exact this.2
          have hkrest : k ∉ mapKeys rest := by
            intro hmem
            apply hknot
            rw [hcc']
            simp only [mapKeys, List.map_cons, List.mem_cons]
            exact Or.inr hmem
          constructor
          · exact nodup_mapKeys_append_singleton _ hrestnd hkrest
          · have hsz := w.size_eq
            rw [hcc'] at hsz
            simp only [List.length_cons] at hsz
            simp only [List.length_append, List.length_cons, List.length_nil]
            omega
    · rw [LRUCache.set_new_room c k v now hh hlen]
      constructor
      · exact nodup_mapKeys_append_singleton _ w.nodup hknot
      · have hsz := w.size_eq
        simp only [List.length_append, List.length_cons, List.length_nil]
        omega

theorem cacheWF_delete {c : LRUCache V} (w : CacheWF c) (k : String) :
    CacheWF (c.delete k).2 := by
  unfold LRUCache.delete
  cases hh : mapHas c.cache k with
  | false => exact w
  | true =>
    obtain ⟨e, hg⟩ : ∃ e, mapGet c.cache k = some e := by
      unfold mapHas at hh
      cases hg : mapGet c.cache k with
      | none => rw [hg] at hh; simp [Option.isSome] at hh
      | some e => exact ⟨e, rfl⟩
    simp only [if_true]
    refine ⟨(mapKeys_sublist_mapDelete c.cache k).nodup w.nodup, ?_⟩
    have hlen := length_mapDelete_of_mem hg
    have hsz := w.size_eq
    simp only
    omega

theorem cacheWF_clear (c : LRUCache V) : CacheWF c.clear :=
  ⟨List.nodup_nil, rfl⟩

theorem cacheWF_has {c : LRUCache V} (w : CacheWF c) (k : String) (now : Nat) :
    CacheWF (c.has k now).2 := by
  cases hg : mapGet c.cache k with
  | none =>
    rw [LRUCache.has_absent c k now hg]
    exact w
  | some e =>
    by_cases hex : c.ttl < now - e.timestamp
    · rw [LRUCache.has_expired c k now e hg hex]
      refine ⟨(mapKeys_sublist_mapDelete c.cache k).nodup w.nodup, ?_⟩
      have hlen := length_mapDelete_of_mem hg
      have hsz := w.size_eq
      simp only
      omega
    · rw [LRUCache.has_live c k now e hg hex]
      exact w

theorem cacheWF_cleanup {c : LRUCache V} (w : CacheWF c) (now : Nat) :
    CacheWF (c.cleanupExpired now) := by
  unfold LRUCache.cleanupExpired
  constructor
  · exact ((List.filter_sublist c.cache).map Prod.fst).nodup w.nodup
  · have hsplit := filter_length_split c.cache
      (fun p => decide (c.ttl < now - p.2.timestamp))
    have hsz := w.size_eq
    simp only
    omega

theorem cacheWF_applyOp {c : LRUCache V} (w : CacheWF c) (op : CacheOp V) :
    CacheWF (applyOp c op) := by
  cases op with
  | get k now => exact cacheWF_get w k now
  | set k v now => exact cacheWF_set w k v now
  | delete k => exact cacheWF_delete w k
  | clear => exact cacheWF_clear c
  | has k now => exact cacheWF_has w k now
  | cleanup now => exact cacheWF_cleanup w now

theorem cacheWF_runOps : ∀ (ops : List (CacheOp V)) (c : LRUCache V),
    CacheWF c → CacheWF (runOps c ops)
  | [], _, w => w
  | op :: rest, c, w => cacheWF_runOps rest (applyOp c op) (cacheWF_applyOp w op)

end CacheInvariants

section CacheGoodInvariants

variable {V : Type}


theorem entriesBdd_mono {l : List (String × CacheEntry V)} {n n' : Nat}
    (h : entriesBdd l n) (hn : n ≤ n') : entriesBdd l n' :=
  fun p hp => le_trans (h p hp) hn

theorem entriesBdd_sublist {l l' : List (String × CacheEntry V)} {n : Nat}
    (hs : l'.Sublist l) (h : entriesBdd l n) : entriesBdd l' n :=
  fun p hp => h p (hs.subset hp)

theorem recencySorted_sublist {l l' : List (String × CacheEntry V)}
    (hs : l'.Sublist l) (h : RecencySorted l) : RecencySorted l' :=
  h.sublist hs

theorem recencySorted_append_new {l l' : List (String × CacheEntry V)} {n hwm : Nat}
    (hs : l'.Sublist l) (hsorted : RecencySorted l) (hbdd : entriesBdd l hwm)
    (hn : hwm ≤ n) (p : String × CacheEntry V) (hp : p.2.lastAccessed = n) :
    RecencySorted (l' ++ [p]) := by
  unfold RecencySorted
  rw [List.pairwise_append]
  refine ⟨hsorted.sublist hs, List.pairwise_singleton _ _, ?_⟩
  intro a ha b hb
  simp only [List.mem_singleton] at hb
  subst hb
  rw [hp]
  exact le_trans (hbdd a (hs.subset ha)) hn

theorem entriesBdd_append_new {l l' : List (String × CacheEntry V)} {n hwm : Nat}
    (hs : l'.Sublist l) (hbdd : entriesBdd l hwm) (hn : hwm ≤ n)
    (p : String × CacheEntry V) (hp : p.2.lastAccessed = n) :
    entriesBdd (l' ++ [p]) n := by
  intro a ha
  rw [List.mem_append] at ha
  cases ha with
  | inl h1 => exact le_trans (hbdd a (hs.subset h1)) hn
  | inr h2 =>
    simp only [List.mem_singleton] at h2
    subst h2
    exact le_of_eq hp


theorem cacheGood_empty (maxSize ttl hwm : Nat) :
    CacheGood (LRUCache.empty V maxSize ttl) hwm := by
  refine ⟨cacheWF_empty maxSize ttl, ?_, ?_, ?_, ?_⟩
  · simp [LRUCache.empty]
  · intro p hp; simp [LRUCache.empty] at hp
  · exact List.Pairwise.nil
  · intro p hp; simp [LRUCache.empty] at hp

theorem cacheGood_get {c : LRUCache V} {hwm : Nat} (g : CacheGood c hwm)
    (k : String) (now : Nat) (hnow : hwm ≤ now) :
    CacheGood (c.get k now).2 now := by
  cases hg : mapGet c.cache k with
  | none =>
    rw [LRUCache.get_absent c k now hg]
    exact ⟨⟨g.wf.nodup, g.wf.size_eq⟩, g.size_le, g.ne_keys, g.sorted,
      entriesBdd_mono g.bdd hnow⟩
  | some e =>
    by_cases hex : c.ttl < now - e.timestamp
    · rw [LRUCache.get_expired c k now e hg hex]
      have hw : CacheWF (c.get k now).2 := cacheWF_get g.wf k now
      rw [LRUCache.get_expired c k now e hg hex] at hw
      refine ⟨hw, ?_, ?_, ?_, ?_⟩
      · exact le_trans ((mapDelete_sublist c.cache k).length_le) g.size_le
      · intro p hp
        exact g.ne_keys p ((mapDelete_sublist c.cache k).subset hp)
      · exact recencySorted_sublist (mapDelete_sublist c.cache k) g.sorted
      · exact entriesBdd_mono
          (entriesBdd_sublist (mapDelete_sublist c.cache k) g.bdd) hnow
    · rw [LRUCache.get_hit c k now e hg hex]
      have hw : CacheWF (c.get k now).2 := cacheWF_get g.wf k now
      rw [LRUCache.get_hit c k now e hg hex] at hw
      have hnone : mapGet (mapDelete c.cache k) k = none := mapGet_mapDelete_self g.wf.nodup
      have hhas : mapHas (mapDelete c.cache k) k = false := by
        unfold mapHas; rw [hnone]; rfl
      have happ := mapSet_eq_append_of_not_has
        (m := mapDelete c.cache k) (k := k)
        { e with lastAccessed := now, accessCount := e.accessCount + 1 } hhas
      have hkmem : k ∈ mapKeys c.cache := mem_of_mapGet_eq_some hg
      have hkne : k ≠ "" := by
        simp only [mapKeys, List.mem_map] at hkmem
        obtain ⟨p, hp, hpk⟩ := hkmem
        exact hpk ▸ g.ne_keys p hp
      have hlen := length_mapDelete_of_mem hg
      refine ⟨hw, ?_, ?_, ?_, ?_⟩
      · simp only [happ, List.length_append, List.length_cons, List.length_nil]
        have := g.size_le
        omega
      · intro p hp
        simp only [happ, List.mem_append, List.mem_singleton] at hp
        cases hp with
        | inl h1 => exact g.ne_keys p ((mapDelete_sublist c.cache k).subset h1)
        | inr h2 => rw [h2]; exact hkne
      · simp only [happ]
        exact recencySorted_append_new (mapDelete_sublist c.cache k)
          g.sorted g.bdd hnow _ rfl
      · simp only [happ]
        exact entriesBdd_append_new (mapDelete_sublist c.cache k) g.bdd hnow _ rfl

end CacheGoodInvariants

section CacheGoodSet

variable {V : Type}

theorem cacheGood_set {c : LRUCache V} {hwm : Nat} (g : CacheGood c hwm)
    (k : String) (v : V) (now : Nat) (hk : k ≠ "") (hnow : hwm ≤ now)
    (hmax : 1 ≤ c.maxSize) :
    CacheGood (c.set k v now) now := by
  have hw : CacheWF (c.set k v now) := cacheWF_set g.wf k v now
  cases hh : mapHas c.cache k with
  | true =>
    rw [LRUCache.set_existing c k v now hh] at hw ⊢
    have hnone : mapGet (mapDelete c.cache k) k = none := mapGet_mapDelete_self g.wf.nodup
    have hhas : mapHas (mapDelete c.cache k) k = false := by
      unfold mapHas; rw [hnone]; rfl
    have happ := mapSet_eq_append_of_not_has
      (m := mapDelete c.cache k) (k := k)
      { value := v, timestamp := now, accessCount := 1, lastAccessed := now } hhas
    obtain ⟨e, hg⟩ : ∃ e, mapGet c.cache k = some e := by
      unfold mapHas at hh
      cases hg : mapGet c.cache k with
      | none => rw [hg] at hh; simp [Option.isSome] at hh
      | some e => exact ⟨e, rfl⟩
    have hlen := length_mapDelete_of_mem hg
    refine ⟨hw, ?_, ?_, ?_, ?_⟩
    · simp only [happ, List.length_append, List.length_cons, List.length_nil]
      have := g.size_le
      omega
    · intro p hp
      simp only [happ, List.mem_append, List.mem_singleton] at hp
      cases hp with
      | inl h1 => exact g.ne_keys p ((mapDelete_sublist c.cache k).subset h1)
      | inr h2 => rw [h2]; exact hk
    · simp only [happ]
      exact recencySorted_append_new (mapDelete_sublist c.cache k)
        g.sorted g.bdd hnow _ rfl
    · simp only [happ]
      exact entriesBdd_append_new (mapDelete_sublist c.cache k) g.bdd hnow _ rfl
  | false =>
    have hknot : k ∉ mapKeys c.cache := not_mem_of_mapHas_eq_false hh
    by_cases hlen : c.maxSize ≤ c.cache.length
    · cases hcc : c.cache with
      | nil =>
        exfalso
        rw [hcc] at hlen
        simp only [List.length_nil] at hlen
        omega
      | cons p rest =>
        by_cases hk₀ : p.1 = ""
        · exfalso
          apply g.ne_keys p _ hk₀
          rw [hcc]
          exact List.mem_cons_self p rest
        · have hcc' : c.cache = (p.1, p.2) :: rest := by rw [hcc]
          rw [LRUCache.set_new_evict c k v now hh hlen p.1 p.2 rest hcc' hk₀] at hw ⊢
          have hsub : rest.Sublist c.cache := by
            rw [hcc]
            exact List.sublist_cons_self p rest
          refine ⟨hw, ?_, ?_, ?_, ?_⟩
          · have hsl := g.size_le
            rw [hcc] at hsl
            simp only [List.length_cons] at hsl
            simp only [List.length_append, List.length_cons, List.length_nil]
            omega
          · intro q hq
            simp only [List.mem_append, List.mem_singleton] at hq
            cases hq with
            | inl h1 => exact g.ne_keys q (hsub.subset h1)
            | inr h2 => rw [h2]; exact hk
          · exact recencySorted_append_new hsub g.sorted g.bdd hnow _ rfl
          · exact entriesBdd_append_new hsub g.bdd hnow _ rfl
    · rw [LRUCache.set_new_room c k v now hh hlen] at hw ⊢
      refine ⟨hw, ?_, ?_, ?_, ?_⟩
      · simp only [List.length_append, List.length_cons, List.length_nil]
        omega
      · intro q hq
        simp only [List.mem_append, List.mem_singleton] at hq
        cases hq with
        | inl h1 => exact g.ne_keys q h1
        | inr h2 => rw [h2]; exact hk
      · exact recencySorted_append_new (List.Sublist.refl c.cache)
          g.sorted g.bdd hnow _ rfl
      · exact entriesBdd_append_new (List.Sublist.refl c.cache) g.bdd hnow _ rfl

theorem cacheGood_delete {c : LRUCache V} {hwm : Nat} (g : CacheGood c hwm)
    (k : String) : CacheGood (c.delete k).2 hwm := by
  have hw : CacheWF (c.delete k).2 := cacheWF_delete g.wf k
  unfold LRUCache.delete at hw ⊢
  cases hh : mapHas c.cache k with
  | false => exact g
  | true =>
    rw [hh] at hw
    simp only [if_true] at hw ⊢
    refine ⟨hw, ?_, ?_, ?_, ?_⟩
    · exact le_trans (mapDelete_sublist c.cache k).length_le g.size_le
    · intro p hp
      exact g.ne_keys p ((mapDelete_sublist c.cache k).subset hp)
    · exact recencySorted_sublist (mapDelete_sublist c.cache k) g.sorted
    · exact entriesBdd_sublist (mapDelete_sublist c.cache k) g.bdd

theorem cacheGood_clear {c : LRUCache V} {hwm : Nat} (_ : CacheGood c hwm) :
    CacheGood c.clear hwm := by
  refine ⟨cacheWF_clear c, ?_, ?_, ?_, ?_⟩
  · simp [LRUCache.clear]
  · intro p hp; simp [LRUCache.clear] at hp
  · exact List.Pairwise.nil
  · intro p hp; simp [LRUCache.clear] at hp

theorem cacheGood_has {c : LRUCache V} {hwm : Nat} (g : CacheGood c hwm)
    (k : String) (now : Nat) (hnow : hwm ≤ now) :
    CacheGood (c.has k now).2 now := by
  have hw : CacheWF (c.has k now).2 := cacheWF_has g.wf k now
  cases hg : mapGet c.cache k with
  | none =>
    rw [LRUCache.has_absent c k now hg] at hw ⊢
    exact ⟨hw, g.size_le, g.ne_keys, g.sorted, entriesBdd_mono g.bdd hnow⟩
  | some e =>
    by_cases hex : c.ttl < now - e.timestamp
    · rw [LRUCache.has_expired c k now e hg hex] at hw ⊢
      refine ⟨hw, ?_, ?_, ?_, ?_⟩
      · exact le_trans (mapDelete_sublist c.cache k).length_le g.size_le
      · intro p hp
        exact g.ne_keys p ((mapDelete_sublist c.cache k).subset hp)
      · exact recencySorted_sublist (mapDelete_sublist c.cache k) g.sorted
      · exact entriesBdd_mono
          (entriesBdd_sublist (mapDelete_sublist c.cache k) g.bdd) hnow
    · rw [LRUCache.has_live c k now e hg hex] at hw ⊢
      exact ⟨hw, g.size_le, g.ne_keys, g.sorted, entriesBdd_mono g.bdd hnow⟩

theorem cacheGood_cleanup {c : LRUCache V} {hwm : Nat} (g : CacheGood c hwm)
    (now : Nat) (hnow : hwm ≤ now) :
    CacheGood (c.cleanupExpired now) now := by
  have hw : CacheWF (c.cleanupExpired now) := cacheWF_cleanup g.wf now
  unfold LRUCache.cleanupExpired at hw ⊢
  refine ⟨hw, ?_, ?_, ?_, ?_⟩
  · exact le_trans (List.filter_sublist c.cache).length_le g.size_le
  · intro p hp
    exact g.ne_keys p ((List.filter_sublist c.cache).subset hp)
  · exact recencySorted_sublist (List.filter_sublist c.cache) g.sorted
  · exact entriesBdd_mono
      (entriesBdd_sublist (List.filter_sublist c.cache) g.bdd) hnow

/-- Every operation preserves the configured capacity. -/
theorem applyOp_maxSize (c : LRUCache V) (op : CacheOp V) :
    (applyOp c op).maxSize = c.maxSize := by
  cases op <;>
    simp only [applyOp, LRUCache.get, LRUCache.set, LRUCache.delete, LRUCache.clear,
      LRUCache.has, LRUCache.cleanupExpired] <;>
    (repeat' split) <;> rfl

theorem cacheGood_applyOp {c : LRUCache V} {hwm : Nat} (g : CacheGood c hwm)
    (op : CacheOp V) (hkey : opKeyOk op = true)
    (hnow : ∀ n, opNow op = some n → hwm ≤ n) (hmax : 1 ≤ c.maxSize) :
    CacheGood (applyOp c op) ((opNow op).getD hwm) := by
  cases op with
  | get k now => exact cacheGood_get g k now (hnow now rfl)
  | set k v now =>
    have hk : k ≠ "" := by
      simp only [opKeyOk, Bool.not_eq_true', decide_eq_false_iff_not] at hkey
      exact hkey
    exact cacheGood_set g k v now hk (hnow now rfl) hmax
  | delete k => exact cacheGood_delete g k
  | clear => exact cacheGood_clear g
  | has k now => exact cacheGood_has g k now (hnow now rfl)
  | cleanup now => exact cacheGood_cleanup g now (hnow now rfl)

theorem cacheGood_runOps : ∀ (ops : List (CacheOp V)) (c : LRUCache V) (hwm : Nat),
    CacheGood c hwm → 1 ≤ c.maxSize → wfTrace hwm ops = true →
    CacheGood (runOps c ops) (traceHwm hwm ops) := by
  intro ops
  induction ops with
  | nil => intro c hwm g _ _; exact g
  | cons op rest ih =>
    intro c hwm g hmax htr
    unfold wfTrace at htr
    rw [Bool.and_eq_true] at htr
    have hmax' : 1 ≤ (applyOp c op).maxSize := by
      rw [applyOp_maxSize]; exact hmax
    cases hn : opNow (V := V) op with
    | none =>
      rw [hn] at htr
      have g' : CacheGood (applyOp c op) ((opNow op).getD hwm) :=
        cacheGood_applyOp g op htr.1 (by intro n hcontra; rw [hn] at hcontra; cases hcontra) hmax
      rw [hn] at g'
      simp only [Option.getD] at g'
      have := ih (applyOp c op) hwm g' hmax' htr.2
      unfold runOps traceHwm
      rw [hn]
      exact this
    | some n =>
      rw [hn] at htr
      rw [Bool.and_eq_true, decide_eq_true_eq] at htr
      have g' : CacheGood (applyOp c op) ((opNow op).getD hwm) :=
        cacheGood_applyOp g op htr.1
          (by intro n' hn'; rw [hn] at hn'; cases hn'; exact htr.2.1) hmax
      rw [hn] at g'
      simp only [Option.getD] at g'
      have := ih (applyOp c op) n g' hmax' htr.2.2
      unfold runOps traceHwm
      rw [hn]
      exact this

end CacheGoodSet

section StatsInvariant

variable {V : Type}


theorem set_counters_unchanged (c : LRUCache V) (k : String) (v : V) (now : Nat) :
    (c.set k v now).stats.hits = c.stats.hits ∧
    (c.set k v now).stats.misses = c.stats.misses ∧
    (c.set k v now).stats.totalRequests = c.stats.totalRequests := by
  simp only [LRUCache.set]
  repeat' split
  all_goals exact ⟨rfl, rfl, rfl⟩

theorem delete_counters_unchanged (c : LRUCache V) (k : String) :
    (c.delete k).2.stats.hits = c.stats.hits ∧
    (c.delete k).2.stats.misses = c.stats.misses ∧
    (c.delete k).2.stats.totalRequests = c.stats.totalRequests := by
  simp only [LRUCache.delete]
  repeat' split
  all_goals exact ⟨rfl, rfl, rfl⟩

theorem has_counters_unchanged (c : LRUCache V) (k : String) (now : Nat) :
    (c.has k now).2.stats.hits = c.stats.hits ∧
    (c.has k now).2.stats.misses = c.stats.misses ∧
    (c.has k now).2.stats.totalRequests = c.stats.totalRequests := by
  simp only [LRUCache.has]
  repeat' split
  all_goals exact ⟨rfl, rfl, rfl⟩

theorem statsOk_applyOp {c : LRUCache V} (h : statsOk c) (op : CacheOp V) :
    statsOk (applyOp c op) := by
  cases op with
  | get k now =>
    unfold statsOk at h ⊢
    cases hg : mapGet c.cache k with
    | none =>
      simp only [applyOp, LRUCache.get_absent c k now hg]
      omega
    | some e =>
      by_cases hex : c.ttl < now - e.timestamp
      · simp only [applyOp, LRUCache.get_expired c k now e hg hex]
        omega
      · simp only [applyOp, LRUCache.get_hit c k now e hg hex]
        omega
  | set k v now =>
    unfold statsOk at h ⊢
    have := set_counters_unchanged c k v now
    simp only [applyOp]
    omega
  | delete k =>
    unfold statsOk at h ⊢
    have := delete_counters_unchanged c k
    simp only [applyOp]
    omega
  | clear =>
    unfold statsOk
    simp [applyOp, LRUCache.clear]
  | has k now =>
    unfold statsOk at h ⊢
    have := has_counters_unchanged c k now
    simp only [applyOp]
    omega
  | cleanup now =>
    unfold statsOk at h ⊢
    simp only [applyOp, LRUCache.cleanupExpired]
    omega

theorem statsOk_runOps : ∀ (ops : List (CacheOp V)) (c : LRUCache V),
    statsOk c → statsOk (runOps c ops)
  | [], _, h => h
  | op :: rest, c, h => statsOk_runOps rest (applyOp c op) (statsOk_applyOp h op)

end StatsInvariant

section CacheClaimHelpers

variable {V : Type}

theorem runOps_maxSize : ∀ (ops : List (CacheOp V)) (c : LRUCache V),
    (runOps c ops).maxSize = c.maxSize
  | [], _ => rfl
  | op :: rest, c => by
    unfold runOps
    rw [runOps_maxSize rest (applyOp c op), applyOp_maxSize]

theorem LRUCache.set_ttl (c : LRUCache V) (k : String) (v : V) (now : Nat) :
    (c.set k v now).ttl = c.ttl := by
  simp only [LRUCache.set]
  repeat' split
  all_goals rfl

theorem LRUCache.set_get_self (c : LRUCache V) (k : String) (v : V) (now : Nat) :
    mapGet (c.set k v now).cache k =
      some { value := v, timestamp := now, accessCount := 1, lastAccessed := now } := by
  simp only [LRUCache.set]
  exact mapGet_mapSet_self _ _ _


end CacheClaimHelpers

/-- C10: starting from a fresh cache, after every sequence of cache
operations (get, set, delete, has, clear, periodic cleanup) the
statistics satisfy `hits + misses = totalRequests`: only `get` touches
the three counters, bumping `totalRequests` and exactly one of
`hits`/`misses`, and `clear` resets all of them together. -/
theorem claim_C10_stats_identity (V : Type) (maxSize ttl : Nat) (ops : List (CacheOp V)) :
    (runOps (LRUCache.empty V maxSize ttl) ops).stats.hits +
      (runOps (LRUCache.empty V maxSize ttl) ops).stats.misses =
      (runOps (LRUCache.empty V maxSize ttl) ops).stats.totalRequests :=
  statsOk_runOps ops (LRUCache.empty V maxSize ttl) rfl

/-- C6, counterexample: `currentSize` does not always equal the number of
live (non-expired) entries.  Insert `"a"` at time 0 into a cache with
`ttl = 60000`, then run any operation at time 60001 (here, a `get` of a
different key): the entry for `"a"` is expired but still stored, so
`currentSize` is 1 while no live entry remains. -/
theorem claim_C6_counterexample :
    (runOps (LRUCache.empty Nat 10 60000)
      [CacheOp.set "a" 5 0, CacheOp.get "b" 60001]).stats.currentSize = 1 ∧
    liveEntryCount
      (runOps (LRUCache.empty Nat 10 60000)
        [CacheOp.set "a" 5 0, CacheOp.get "b" 60001]) 60001 = 0 := by
  constructor <;> rfl

/-- C6, amended: after every sequence of operations `currentSize` equals
the number of entries the map currently stores (expired entries count
until an access or the periodic sweep removes them), and — provided the
capacity is at least 1 and all `set` keys are non-empty — `currentSize`
never exceeds `maxSize`. -/
theorem claim_C6_amended (V : Type) (maxSize ttl : Nat) (ops : List (CacheOp V))
    (hmax : 1 ≤ maxSize) (htr : wfTrace 0 ops = true) :
    (runOps (LRUCache.empty V maxSize ttl) ops).stats.currentSize =
      (runOps (LRUCache.empty V maxSize ttl) ops).cache.length ∧
    (runOps (LRUCache.empty V maxSize ttl) ops).stats.currentSize ≤ maxSize := by
  have hm : 1 ≤ (LRUCache.empty V maxSize ttl).maxSize := hmax
  have g := cacheGood_runOps ops (LRUCache.empty V maxSize ttl) 0
    (cacheGood_empty maxSize ttl 0) hm htr
  have hms := runOps_maxSize ops (LRUCache.empty V maxSize ttl)
  refine ⟨g.wf.size_eq, ?_⟩
  rw [g.wf.size_eq]
  have := g.size_le
  rw [hms] at this
  exact this

/-- Witness for the amended C6 at a concrete trace. -/
theorem claim_C6_amended_witness :
    (runOps (LRUCache.empty Nat 2 1000)
      [CacheOp.set "a" 1 5, CacheOp.get "a" 6]).stats.currentSize =
      (runOps (LRUCache.empty Nat 2 1000)
        [CacheOp.set "a" 1 5, CacheOp.get "a" 6]).cache.length ∧
    (runOps (LRUCache.empty Nat 2 1000)
      [CacheOp.set "a" 1 5, CacheOp.get "a" 6]).stats.currentSize ≤ 2 :=
  claim_C6_amended Nat 2 1000 [CacheOp.set "a" 1 5, CacheOp.get "a" 6]
    (by decide) (by decide)

/-- C3, counterexample: an entry inserted at `T = 0` with `ttl = 60000`
is still reported as a hit by a `get` at exactly `t = T + ttl = 60000`
(the source tests `now - timestamp > ttl`, strictly), whereas the claim
requires a miss for every `t ≥ T + ttl`. -/
theorem claim_C3_counterexample :
    (((LRUCache.empty Nat 5 60000).set "a" 7 0).get "a" 60000).1 = some 7 := by
  rfl

/-- C3, amended: an entry set at time `T` and immediately queried at time
`t ≥ T` is a hit (returning the stored value) exactly when
`t ≤ T + ttl`, and a miss exactly when `t > T + ttl`: the expiry
comparison is strict, so the instant `T + ttl` itself still hits. -/
theorem claim_C3_amended (V : Type) (c : LRUCache V) (k : String) (v : V) (T t : Nat)
    (hTt : T ≤ t) :
    ((c.set k v T).get k t).1 = if t ≤ T + c.ttl then some v else none := by
  have hg := LRUCache.set_get_self c k v T
  have httl := LRUCache.set_ttl c k v T
  by_cases hex : (c.set k v T).ttl < t - T
  · have hrw := LRUCache.get_expired (c.set k v T) k t
      { value := v, timestamp := T, accessCount := 1, lastAccessed := T } hg hex
    rw [hrw]
    rw [httl] at hex
    have : ¬ t ≤ T + c.ttl := by omega
    simp [this]
  · have hrw := LRUCache.get_hit (c.set k v T) k t
      { value := v, timestamp := T, accessCount := 1, lastAccessed := T } hg hex
    rw [hrw]
    rw [httl] at hex
    have : t ≤ T + c.ttl := by omega
    simp [this]

/-- Witness for the amended C3: a hit strictly inside the window. -/
theorem claim_C3_amended_witness :
    (((LRUCache.empty Nat 5 1000).set "a" 7 3).get "a" 10).1 =
      if 10 ≤ 3 + (LRUCache.empty Nat 5 1000).ttl then some 7 else none :=
  claim_C3_amended Nat (LRUCache.empty Nat 5 1000) "a" 7 3 10 (by decide)

/-- C9, counterexample: `has` on a present-but-expired key mutates the
statistics — it removes the entry and decrements `currentSize` (a
`CacheStats` field), so `has` does not leave the stats untouched. -/
theorem claim_C9_counterexample :
    ((((LRUCache.empty Nat 5 60000).set "a" 7 0).has "a" 60001).1 = false) ∧
    (((LRUCache.empty Nat 5 60000).set "a" 7 0).stats.currentSize = 1) ∧
    ((((LRUCache.empty Nat 5 60000).set "a" 7 0).has "a" 60001).2.stats.currentSize = 0) := by
  refine ⟨rfl, rfl, rfl⟩


theorem mapGet_isSome_of_mem {κ α : Type} [DecidableEq κ] {m : List (κ × α)} {k : κ}
    (h : k ∈ mapKeys m) : (mapGet m k).isSome = true := by
  induction m with
  | nil => simp [mapKeys] at h
  | cons p rest ih =>
    simp only [mapKeys, List.map_cons, List.mem_cons] at h
    simp only [mapGet]
    by_cases hp : p.1 = k
    · rw [if_pos hp]; rfl
    · rw [if_neg hp]
      cases h with
      | inl h1 => exact absurd h1.symm hp
      | inr h2 => exact ih h2

/-- C9, amended: `has` returns `true` exactly when `get` would report a
hit (identical expiry treatment); `has` never changes `hits`, `misses`
or `totalRequests`; when it returns `true` the state is completely
unchanged (no recency update, no counter); when it returns `false` the
only state change is the lazy removal of an expired entry (with its
`currentSize` decrement), exactly as `get` would also have removed it. -/
theorem claim_C9_amended (V : Type) (c : LRUCache V) (k : String) (now : Nat) :
    ((c.has k now).1 = true ↔ ((c.get k now).1).isSome = true) ∧
    (c.has k now).2.stats.hits = c.stats.hits ∧
    (c.has k now).2.stats.misses = c.stats.misses ∧
    (c.has k now).2.stats.totalRequests = c.stats.totalRequests ∧
    ((c.has k now).1 = true → (c.has k now).2 = c) ∧
    ((c.has k now).1 = false → (c.has k now).2.cache = mapDelete c.cache k) := by
  cases hg : mapGet c.cache k with
  | none =>
    rw [LRUCache.has_absent c k now hg, LRUCache.get_absent c k now hg]
    have hnd : mapDelete c.cache k = c.cache :=
      mapDelete_eq_self_of_not_mem (fun hmem => by
        have hs := mapGet_isSome_of_mem (m := c.cache) (k := k) hmem
        rw [hg] at hs
        simp [Option.isSome] at hs)
    refine ⟨?_, rfl, rfl, rfl, ?_, ?_⟩
    · simp [Option.isSome]
    · intro h; cases h
    · intro _; exact hnd.symm
  | some e =>
    by_cases hex : c.ttl < now - e.timestamp
    · rw [LRUCache.has_expired c k now e hg hex, LRUCache.get_expired c k now e hg hex]
      refine ⟨?_, rfl, rfl, rfl, ?_, ?_⟩
      · simp [Option.isSome]
      · intro h; cases h
      · intro _; rfl
    · rw [LRUCache.has_live c k now e hg hex, LRUCache.get_hit c k now e hg hex]
      refine ⟨?_, rfl, rfl, rfl, ?_, ?_⟩
      · simp [Option.isSome]
      · intro _; rfl
      · intro h; cases h

/-- Witness for the amended C9 on a live entry. -/
theorem claim_C9_amended_witness :
    ((((LRUCache.empty Nat 5 1000).set "a" 7 0).has "a" 10).1 = true ↔
      (((((LRUCache.empty Nat 5 1000).set "a" 7 0).get "a" 10).1).isSome = true)) ∧
    ((((LRUCache.empty Nat 5 1000).set "a" 7 0).has "a" 10).2.stats.hits =
      ((LRUCache.empty Nat 5 1000).set "a" 7 0).stats.hits) ∧
    ((((LRUCache.empty Nat 5 1000).set "a" 7 0).has "a" 10).2.stats.misses =
      ((LRUCache.empty Nat 5 1000).set "a" 7 0).stats.misses) ∧
    ((((LRUCache.empty Nat 5 1000).set "a" 7 0).has "a" 10).2.stats.totalRequests =
      ((LRUCache.empty Nat 5 1000).set "a" 7 0).stats.totalRequests) ∧
    ((((LRUCache.empty Nat 5 1000).set "a" 7 0).has "a" 10).1 = true →
      (((LRUCache.empty Nat 5 1000).set "a" 7 0).has "a" 10).2 =
        ((LRUCache.empty Nat 5 1000).set "a" 7 0)) ∧
    ((((LRUCache.empty Nat 5 1000).set "a" 7 0).has "a" 10).1 = false →
      (((LRUCache.empty Nat 5 1000).set "a" 7 0).has "a" 10).2.cache =
        mapDelete ((LRUCache.empty Nat 5 1000).set "a" 7 0).cache "a") :=
  claim_C9_amended Nat ((LRUCache.empty Nat 5 1000).set "a" 7 0) "a" 10

/-- C2, counterexample: with `maxSize = 1`, `Set("")` then `Set("a")`
leaves two entries and `currentSize = 2 > maxSize`: the eviction guard
`if (firstKey)` is JavaScript-falsy for the empty-string key, so no entry
is evicted although the store is at capacity. -/
theorem claim_C2_counterexample :
    ¬ ((runOps (LRUCache.empty Nat 1 60000)
        [CacheOp.set "" 1 0, CacheOp.set "a" 2 1]).stats.currentSize ≤ 1) := by
  decide

/-- C2, amended: over any operation sequence with non-empty keys,
non-decreasing timestamps and capacity at least 1, `currentSize ≤
maxSize` holds after every call, and when a `set` of a new key finds the
store at capacity, the entry it removes is the head of the map order,
whose `lastAccessedAt` is minimal among all current entries. -/
theorem claim_C2_amended (V : Type) (maxSize ttl : Nat) (ops : List (CacheOp V))
    (k : String) (v : V) (now : Nat)
    (k₀ : String) (e₀ : CacheEntry V) (rest : List (String × CacheEntry V))
    (hmax : 1 ≤ maxSize) (htr : wfTrace 0 ops = true) (hk : k ≠ "")
    (hnow : traceHwm 0 ops ≤ now)
    (hcc : (runOps (LRUCache.empty V maxSize ttl) ops).cache = (k₀, e₀) :: rest)
    (hfull : maxSize ≤ ((k₀, e₀) :: rest).length)
    (hnew : mapHas ((k₀, e₀) :: rest) k = false) :
    (runOps (LRUCache.empty V maxSize ttl) ops).stats.currentSize ≤ maxSize ∧
    (((k₀, e₀) :: rest).all
      (fun p => decide (e₀.lastAccessed ≤ p.2.lastAccessed))) = true ∧
    ((runOps (LRUCache.empty V maxSize ttl) ops).set k v now).cache =
      rest ++ [(k, { value := v, timestamp := now, accessCount := 1,
                     lastAccessed := now })] ∧
    ((runOps (LRUCache.empty V maxSize ttl) ops).set k v now).stats.currentSize ≤
      maxSize := by
  have hm : 1 ≤ (LRUCache.empty V maxSize ttl).maxSize := hmax
  have g := cacheGood_runOps ops (LRUCache.empty V maxSize ttl) 0
    (cacheGood_empty maxSize ttl 0) hm htr
  have hms := runOps_maxSize ops (LRUCache.empty V maxSize ttl)
  have hk₀ : k₀ ≠ "" := by
    apply g.ne_keys (k₀, e₀)
    rw [hcc]
    exact List.mem_cons_self _ _
  have hfull' : (runOps (LRUCache.empty V maxSize ttl) ops).maxSize ≤
      (runOps (LRUCache.empty V maxSize ttl) ops).cache.length := by
    rw [hms, hcc]
    exact hfull
  have hnew' : mapHas (runOps (LRUCache.empty V maxSize ttl) ops).cache k = false := by
    rw [hcc]
    exact hnew
  refine ⟨?_, ?_, ?_, ?_⟩
  · rw [g.wf.size_eq]
    have := g.size_le
    rw [hms] at this
    exact this
  · rw [List.all_eq_true]
    intro p hp
    rw [decide_eq_true_eq]
    have hs := g.sorted
    rw [hcc] at hs
    unfold RecencySorted at hs
    rw [List.pairwise_cons] at hs
    rw [List.mem_cons] at hp
    cases hp with
    | inl h1 => rw [h1]
    | inr h2 => exact hs.1 p h2
  · rw [LRUCache.set_new_evict _ k v now hnew' hfull' k₀ e₀ rest hcc hk₀]
  · have g' := cacheGood_set g k v now hk hnow (by rw [hms]; exact hmax)
    rw [g'.wf.size_eq]
    have hsz := g'.size_le
    have hms' : ((runOps (LRUCache.empty V maxSize ttl) ops).set k v now).maxSize =
        maxSize := by
      have := applyOp_maxSize (runOps (LRUCache.empty V maxSize ttl) ops)
        (CacheOp.set k v now)
      simp only [applyOp] at this
      rw [this, hms]
      rfl
    rw [hms'] at hsz
    exact hsz

/-- Witness for the amended C2: a cache of capacity 2 holding `"a"`
(promoted by a later hit) and `"b"`; inserting `"c"` evicts `"b"`, the
entry with the least recent access. -/
theorem claim_C2_amended_witness :
    (runOps (LRUCache.empty Nat 2 1000)
      [CacheOp.set "a" 1 10, CacheOp.set "b" 2 20, CacheOp.get "a" 30]).stats.currentSize ≤ 2 ∧
    ((("b", { value := 2, timestamp := 20, accessCount := 1, lastAccessed := 20 }) ::
        [("a", { value := 1, timestamp := 10, accessCount := 2, lastAccessed := 30 })]) :
        List (String × CacheEntry Nat)).all
      (fun p => decide ((20 : Nat) ≤ p.2.lastAccessed)) = true ∧
    ((runOps (LRUCache.empty Nat 2 1000)
      [CacheOp.set "a" 1 10, CacheOp.set "b" 2 20, CacheOp.get "a" 30]).set "c" 3 40).cache =
      [("a", { value := 1, timestamp := 10, accessCount := 2, lastAccessed := 30 })] ++
        [("c", { value := 3, timestamp := 40, accessCount := 1, lastAccessed := 40 })] ∧
    ((runOps (LRUCache.empty Nat 2 1000)
      [CacheOp.set "a" 1 10, CacheOp.set "b" 2 20, CacheOp.get "a" 30]).set "c" 3 40).stats.currentSize ≤ 2 :=
  claim_C2_amended Nat 2 1000
    [CacheOp.set "a" 1 10, CacheOp.set "b" 2 20, CacheOp.get "a" 30]
    "c" 3 40
    "b" { value := 2, timestamp := 20, accessCount := 1, lastAccessed := 20 }
    [("a", { value := 1, timestamp := 10, accessCount := 2, lastAccessed := 30 })]
    (by decide) (by decide) (by decide) (by decide) (by decide) (by decide) (by decide)

section RateLimiterInvariant

theorem mem_mapSet {κ α : Type} [DecidableEq κ] {m : List (κ × α)} {k : κ} {v : α}
    {p : κ × α} (h : p ∈ mapSet m k v) : p ∈ m ∨ p = (k, v) := by
  unfold mapSet at h
  by_cases hh : mapHas m k = true
  · rw [if_pos hh] at h
    rw [List.mem_map] at h
    obtain ⟨q, hq, hfq⟩ := h
    by_cases hqk : q.1 = k
    · right
      rw [← hfq, if_pos hqk]
    · left
      rw [← hfq, if_neg hqk]
      exact hq
  · rw [if_neg hh] at h
    rw [List.mem_append] at h
    cases h with
    | inl h1 => exact Or.inl h1
    | inr h2 =>
      right
      simpa using h2

theorem checkInfo_bounds (cfg : RLConfig) (info : RateLimitInfo) (now : Nat)
    (h1 : info.count ≤ cfg.maxRequests) (h2 : info.burstCount ≤ cfg.burstCapacity) :
    (checkInfo cfg info now).2.count ≤ cfg.maxRequests ∧
    (checkInfo cfg info now).2.burstCount ≤ cfg.burstCapacity := by
  simp only [checkInfo]
  split_ifs with hr hb hc hw hb' hc' hw' <;> constructor <;> simp_all <;> omega

theorem mem_of_mapGet_eq_some_pair {κ α : Type} [DecidableEq κ] {m : List (κ × α)}
    {k : κ} {v : α} (h : mapGet m k = some v) : (k, v) ∈ m := by
  induction m with
  | nil => exact Option.noConfusion h
  | cons p rest ih =>
    simp only [mapGet] at h
    by_cases hp : p.1 = k
    · rw [if_pos hp] at h
      have hv : p.2 = v := Option.some.inj h
      rw [List.mem_cons]
      left
      cases p with
      | mk a b =>
        simp only at hp hv
        rw [hp, hv]
    · rw [if_neg hp] at h
      exact List.mem_cons_of_mem p (ih h)


theorem rlBounded_check {cfg : RLConfig} {s : RateLimiterState}
    (h : rlBounded cfg s) (cid : String) (now : Nat) :
    rlBounded cfg (rlCheck cfg s cid now).2 := by
  intro p hp
  unfold rlCheck at hp
  simp only at hp
  have hmem := mem_mapSet hp
  cases hmem with
  | inl h1 => exact h p h1
  | inr h2 =>
    subst h2
    set info := (mapGet s.clients cid).getD
      { count := 0, resetTime := now + cfg.windowMs, burstCount := 0,
        burstResetTime := now + cfg.burstWindowMs } with hinfo
    have hb : info.count ≤ cfg.maxRequests ∧ info.burstCount ≤ cfg.burstCapacity := by
      cases hg : mapGet s.clients cid with
      | none =>
        rw [hinfo, hg]
        constructor <;> simp [Option.getD]
      | some i =>
        rw [hinfo, hg]
        simp only [Option.getD]
        exact h (cid, i) (mem_of_mapGet_eq_some_pair hg)
    exact checkInfo_bounds cfg info now hb.1 hb.2

theorem rlBounded_cleanup {cfg : RLConfig} {s : RateLimiterState}
    (h : rlBounded cfg s) (now : Nat) : rlBounded cfg (rlCleanup s now) := by
  intro p hp
  unfold rlCleanup at hp
  simp only at hp
  exact h p ((List.filter_sublist s.clients).subset hp)

theorem rlBounded_run (cfg : RLConfig) :
    ∀ (ops : List RLOp) (s : RateLimiterState),
      rlBounded cfg s → rlBounded cfg (rlRun cfg ops s)
  | [], _, h => h
  | op :: rest, s, h => by
    unfold rlRun
    apply rlBounded_run cfg rest
    cases op with
    | check cid now => exact rlBounded_check h cid now
    | cleanup now => exact rlBounded_cleanup h now

end RateLimiterInvariant

/-- C4: for every client and every sequence of middleware checks and
periodic cleanups starting from an empty client map, the per-client
counters never exceed their capacities: `count ≤ maxRequests` and
`burstCount ≤ burstCapacity` hold after every step, because a request is
denied before either counter would be exceeded and the counters are
incremented only on an allowed request. -/
theorem claim_C4_counters_bounded (cfg : RLConfig) (ops : List RLOp) :
    ((rlRun cfg ops { clients := [] }).clients.all
      (fun p => decide (p.2.count ≤ cfg.maxRequests) &&
                decide (p.2.burstCount ≤ cfg.burstCapacity))) = true := by
  rw [List.all_eq_true]
  intro p hp
  have hb := rlBounded_run cfg ops { clients := [] }
    (by intro q hq; simp at hq) p hp
  rw [Bool.and_eq_true, decide_eq_true_eq, decide_eq_true_eq]
  exact ⟨hb.1, hb.2⟩

section MapSetExtra

variable {κ α : Type} [DecidableEq κ]

theorem mapSet_of_has {m : List (κ × α)} {k : κ} (v : α) (h : mapHas m k = true) :
    mapSet m k v = m.map (fun p => if p.1 = k then (k, v) else p) := by
  unfold mapSet
  rw [h]
  simp

theorem mapHas_mapSet_self (m : List (κ × α)) (k : κ) (v : α) :
    mapHas (mapSet m k v) k = true := by
  unfold mapHas
  rw [mapGet_mapSet_self]
  rfl

theorem mapSet_mapSet (m : List (κ × α)) (k : κ) (v w : α) :
    mapSet (mapSet m k v) k w = mapSet m k w := by
  have hh2 : mapHas (mapSet m k v) k = true := mapHas_mapSet_self m k v
  cases hh : mapHas m k with
  | true =>
    rw [mapSet_of_has w hh2, mapSet_of_has v hh, mapSet_of_has w hh, List.map_map]
    apply List.map_congr_left
    intro p _
    by_cases hp : p.1 = k
    · simp [Function.comp, hp]
    · simp [Function.comp, hp]
  | false =>
    have happ := mapSet_eq_append_of_not_has v hh
    rw [happ] at hh2
    rw [happ, mapSet_of_has w hh2, mapSet_eq_append_of_not_has w hh,
      List.map_append, List.map_cons, List.map_nil]
    have hm : ∀ q ∈ m, q.1 ≠ k := fun q hq hqk =>
      (not_mem_of_mapHas_eq_false hh) (by
        simp only [mapKeys, List.mem_map]
        exact ⟨q, hq, hqk⟩)
    rw [List.map_congr_left (fun q hq => by
      rw [if_neg (hm q hq)])]
    simp

theorem mapSet_eq_self_of_get {m : List (κ × α)} {k : κ} {v : α}
    (hnd : (mapKeys m).Nodup) (h : mapGet m k = some v) : mapSet m k v = m := by
  rw [mapSet_of_has v (mapHas_of_mapGet_eq_some h)]
  induction m with
  | nil => rfl
  | cons p rest ih =>
    simp only [mapKeys, List.map_cons, List.nodup_cons] at hnd
    simp only [mapGet] at h
    simp only [List.map_cons]
    by_cases hp : p.1 = k
    · rw [if_pos hp] at h ⊢
      have hv := Option.some.inj h
      have hrest : ∀ q ∈ rest, q.1 ≠ k := by
        intro q hq hqk
        apply hnd.1
        rw [hp, ← hqk]
        simp only [List.mem_map]
        exact ⟨q, hq, rfl⟩
      rw [List.map_congr_left (fun q hq => by rw [if_neg (hrest q hq)])]
      rw [show List.map (fun q : κ × α => q) rest = rest from List.map_id' rest]
      have hpair : (k, v) = p := by
        cases p with
        | mk a b =>
          simp only at hp hv
          rw [hp, hv]
      rw [hpair]
    · rw [if_neg hp] at h ⊢
      rw [ih hnd.2 h]

end MapSetExtra


section SysInvariant


theorem sysInv_init (users : List (Nat × Nat)) (cache : LRUCache Nat) :
    SysInv (SysState.init users cache) := by
  refine ⟨?_, ?_, ?_, ?_, ?_, ?_, ?_⟩ <;>
    simp [SysState.init, queueUserIds, mapKeys]

theorem sysInv_fetch {s : SysState} (hinv : SysInv s) (j : Job) :
    SysInv (fetchStep s j) := by
  unfold fetchStep
  cases hg : mapGet s.pendingRequests j.userId with
  | some g =>
    have hh : mapHas s.pendingRequests j.userId = true := mapHas_of_mapGet_eq_some hg
    have hkeys := mapKeys_mapSet_of_has (m := s.pendingRequests) (g ++ [j]) hh
    refine ⟨hinv.nodupQ, ?_, ?_, ?_, ?_, hinv.flight_not_q, ?_⟩
    · rw [hkeys]; exact hinv.nodupP
    · intro jq hjq
      by_cases hu : jq.userId = j.userId
      · rw [hu, mapGet_mapSet_self]; rfl
      · rw [mapGet_mapSet_ne _ hu]
        exact hinv.q_pend jq hjq
    · intro p hp
      have hmem := mem_mapSet hp
      cases hmem with
      | inl h1 => exact hinv.p_cover p h1
      | inr h2 =>
        rw [h2]
        exact hinv.p_cover (j.userId, g) (mem_of_mapGet_eq_some_pair hg)
    · intro jf hjf
      by_cases hu : jf.userId = j.userId
      · rw [hu, mapGet_mapSet_self]; rfl
      · rw [mapGet_mapSet_ne _ hu]
        exact hinv.flight_pend jf hjf
    · intro p hp
      have hmem := mem_mapSet hp
      cases hmem with
      | inl h1 => exact hinv.groups_ne p h1
      | inr h2 =>
        rw [h2]
        simp
  | none =>
    have hh : mapHas s.pendingRequests j.userId = false := by
      unfold mapHas
      rw [hg]
      rfl
    have hknot : j.userId ∉ mapKeys s.pendingRequests := not_mem_of_mapHas_eq_false hh
    have happ := mapSet_eq_append_of_not_has (m := s.pendingRequests) [j] hh
    have huq : j.userId ∉ queueUserIds s := by
      intro hmem
      unfold queueUserIds at hmem
      rw [List.mem_map] at hmem
      obtain ⟨jq, hjq, hjqu⟩ := hmem
      have := hinv.q_pend jq hjq
      rw [hjqu, hg] at this
      simp [Option.isSome] at this
    refine ⟨?_, ?_, ?_, ?_, ?_, ?_, ?_⟩
    · unfold queueUserIds
      simp only [List.map_append, List.map_cons, List.map_nil]
      rw [List.nodup_append]
      refine ⟨hinv.nodupQ, List.nodup_singleton _, ?_⟩
      intro a ha hb
      simp only [List.mem_singleton] at hb
      subst hb
      exact huq ha
    · rw [happ]
      exact nodup_mapKeys_append_singleton _ hinv.nodupP hknot
    · intro jq hjq
      rw [List.mem_append] at hjq
      cases hjq with
      | inl h1 =>
        cases hgq : mapGet s.pendingRequests jq.userId with
        | none =>
          have := hinv.q_pend jq h1
          rw [hgq] at this
          simp [Option.isSome] at this
        | some gq =>
          rw [happ, mapGet_append_left hgq]
          rfl
      | inr h2 =>
        simp only [List.mem_singleton] at h2
        subst h2
        rw [happ, mapGet_append_right hg, mapGet_singleton_self]
        rfl
    · intro p hp
      rw [happ, List.mem_append] at hp
      cases hp with
      | inl h1 =>
        have := hinv.p_cover p h1
        cases this with
        | inl hq =>
          left
          unfold queueUserIds at hq ⊢
          simp only [List.map_append, List.mem_append]
          exact Or.inl hq
        | inr hf => exact Or.inr hf
      | inr h2 =>
        simp only [List.mem_singleton] at h2
        subst h2
        left
        unfold queueUserIds
        simp
    · intro jf hjf
      cases hgf : mapGet s.pendingRequests jf.userId with
      | none =>
        have := hinv.flight_pend jf hjf
        rw [hgf] at this
        simp [Option.isSome] at this
      | some gf =>
        rw [happ, mapGet_append_left hgf]
        rfl
    · intro jf hjf
      have h1 := hinv.flight_not_q jf hjf
      have h2 : jf.userId ≠ j.userId := by
        intro hequ
        have := hinv.flight_pend jf hjf
        rw [hequ, hg] at this
        simp [Option.isSome] at this
      unfold queueUserIds
      simp only [List.map_append, List.map_cons, List.map_nil, List.mem_append,
        List.mem_singleton]
      intro hmem
      cases hmem with
      | inl hq => exact h1 hq
      | inr he => exact h2 he
    · intro p hp
      rw [happ, List.mem_append] at hp
      cases hp with
      | inl h1 => exact hinv.groups_ne p h1
      | inr h2 =>
        simp only [List.mem_singleton] at h2
        rw [h2]
        simp

theorem sysInv_begin {s : SysState} (hinv : SysInv s) : SysInv (beginStep s) := by
  unfold beginStep
  cases hf : s.inFlight with
  | some j => simp only [Option.isSome, if_true]; exact hinv
  | none =>
    simp only [Option.isSome, Bool.false_eq_true, if_false]
    cases hq : s.processingQueue with
    | nil => exact hinv
    | cons j restQ =>
      have hndq := hinv.nodupQ
      rw [show queueUserIds s = j.userId :: restQ.map Job.userId by
        unfold queueUserIds; rw [hq]; rfl] at hndq
      rw [List.nodup_cons] at hndq
      refine ⟨?_, hinv.nodupP, ?_, ?_, ?_, ?_, hinv.groups_ne⟩
      · exact hndq.2
      · intro jq hjq
        apply hinv.q_pend
        rw [hq]
        exact List.mem_cons_of_mem j hjq
      · intro p hp
        have := hinv.p_cover p hp
        cases this with
        | inl hqm =>
          unfold queueUserIds at hqm
          rw [hq] at hqm
          simp only [List.map_cons, List.mem_cons] at hqm
          cases hqm with
          | inl he => exact Or.inr ⟨j, rfl, he.symm⟩
          | inr hm => exact Or.inl hm
        | inr hfm =>
          obtain ⟨jf, hjf, _⟩ := hfm
          rw [hf] at hjf
          exact Option.noConfusion hjf
      · intro jf hjf
        have := Option.some.inj hjf
        subst this
        apply hinv.q_pend
        rw [hq]
        exact List.mem_cons_self _ _
      · intro jf hjf
        have := Option.some.inj hjf
        subst this
        exact hndq.1

end SysInvariant

section SysInvariantFinish

theorem sysInv_finish {s : SysState} (hinv : SysInv s) (now : Nat) :
    SysInv (finishStep s now).1 := by
  have key : ∀ (c' : LRUCache Nat) (j : Job), s.inFlight = some j →
      SysInv { processingQueue := s.processingQueue
               pendingRequests := mapDelete s.pendingRequests j.userId
               inFlight := none
               users := s.users
               cache := c' } := by
    intro c' j hf
    refine ⟨?_, ?_, ?_, ?_, ?_, ?_, ?_⟩
    · exact hinv.nodupQ
    · exact (mapKeys_sublist_mapDelete s.pendingRequests j.userId).nodup hinv.nodupP
    · intro jq hjq
      have hne : jq.userId ≠ j.userId := by
        intro he
        apply hinv.flight_not_q j hf
        unfold queueUserIds
        rw [List.mem_map]
        exact ⟨jq, hjq, he⟩
      rw [mapGet_mapDelete_ne hne]
      exact hinv.q_pend jq hjq
    · intro p hp
      have hpm : p ∈ s.pendingRequests := (mapDelete_sublist _ _).subset hp
      have hpk : p.1 ≠ j.userId := by
        intro he
        have hmem : p.1 ∈ mapKeys (mapDelete s.pendingRequests j.userId) := by
          simp only [mapKeys, List.mem_map]
          exact ⟨p, hp, rfl⟩
        rw [he] at hmem
        exact not_mem_mapKeys_mapDelete hinv.nodupP hmem
      have hc := hinv.p_cover p hpm
      cases hc with
      | inl hq => exact Or.inl hq
      | inr hfm =>
        obtain ⟨jf, hjf, hju⟩ := hfm
        rw [hf] at hjf
        have hjj := Option.some.inj hjf
        subst hjj
        exact absurd hju (fun he => hpk he.symm)
    · intro jf hjf
      cases hjf
    · intro jf hjf
      cases hjf
    · intro p hp
      exact hinv.groups_ne p ((mapDelete_sublist _ _).subset hp)
  unfold finishStep
  cases hf : s.inFlight with
  | none => exact hinv
  | some j =>
    cases hu : mapGet s.users j.userId with
    | none =>
      simp only [hu]
      exact key s.cache j hf
    | some v =>
      simp only [hu]
      exact key _ j hf

theorem sysInv_step {s : SysState} (hinv : SysInv s) (op : DBOp) :
    SysInv (sysStep s op).1 := by
  cases op with
  | fetch jobId userId => exact sysInv_fetch hinv (mkJob jobId userId)
  | beginTick => exact sysInv_begin hinv
  | finishTick now => exact sysInv_finish hinv now

theorem sysInv_run : ∀ (ops : List DBOp) (s : SysState),
    SysInv s → SysInv (sysRun ops s).1
  | [], _, hinv => hinv
  | op :: rest, s, hinv => sysInv_run rest (sysStep s op).1 (sysInv_step hinv op)

end SysInvariantFinish

/-- C5, counterexample: after one `Fetch(1)` and the start of its
processing tick, the job has been shifted off the queue (queue empty)
while its PendingFetch group still exists — the key `1` is in the
pending map but not in the queue, so queue membership and pending-map
membership disagree in a reachable state. -/
theorem claim_C5_counterexample :
    mapKeys (sysRun [DBOp.fetch 0 1, DBOp.beginTick]
      (SysState.init [(1, 7)] (LRUCache.empty Nat 10 60000))).1.pendingRequests = [1] ∧
    (sysRun [DBOp.fetch 0 1, DBOp.beginTick]
      (SysState.init [(1, 7)] (LRUCache.empty Nat 10 60000))).1.processingQueue = [] := by
  constructor <;> rfl

/-- C5, amended: in every reachable state, queued keys are distinct,
pending keys are distinct, and a key has a (unique) PendingFetch entry
if and only if it is in the FetchQueue or is the key whose fetch is
currently being processed; in particular queue and pending map coincide
exactly whenever no fetch is in flight. -/
theorem claim_C5_amended (ops : List DBOp) (users : List (Nat × Nat))
    (cache : LRUCache Nat) :
    (queueUserIds (sysRun ops (SysState.init users cache)).1).Nodup ∧
    (mapKeys (sysRun ops (SysState.init users cache)).1.pendingRequests).Nodup ∧
    (∀ u : Nat,
      u ∈ mapKeys (sysRun ops (SysState.init users cache)).1.pendingRequests ↔
      (u ∈ queueUserIds (sysRun ops (SysState.init users cache)).1 ∨
       ∃ j, (sysRun ops (SysState.init users cache)).1.inFlight = some j ∧
         j.userId = u)) := by
  have hinv := sysInv_run ops (SysState.init users cache) (sysInv_init users cache)
  refine ⟨hinv.nodupQ, hinv.nodupP, ?_⟩
  intro u
  constructor
  · intro hu
    simp only [mapKeys, List.mem_map] at hu
    obtain ⟨p, hp, hpk⟩ := hu
    have hc := hinv.p_cover p hp
    rw [hpk] at hc
    exact hc
  · intro hu
    have hsome : (mapGet (sysRun ops (SysState.init users cache)).1.pendingRequests
        u).isSome = true := by
      cases hu with
      | inl hq =>
        unfold queueUserIds at hq
        rw [List.mem_map] at hq
        obtain ⟨jq, hjq, hju⟩ := hq
        have hqp := hinv.q_pend jq hjq
        rw [hju] at hqp
        exact hqp
      | inr hfm =>
        obtain ⟨j, hj, hju⟩ := hfm
        have hfp := hinv.flight_pend j hj
        rw [hju] at hfp
        exact hfp
    cases hg : mapGet (sysRun ops (SysState.init users cache)).1.pendingRequests u with
    | none =>
      rw [hg] at hsome
      simp [Option.isSome] at hsome
    | some g => exact mem_of_mapGet_eq_some hg

/-- C7, counterexample: in a successful fetch cycle the first waiter is
resolved before any `userCache.set` happens — the route handlers write
the cache only after their awaited promise settles — so the CacheStore
is not populated before the waiters are completed. -/
theorem claim_C7_counterexample :
    populateBeforeComplete
      (sysRun [DBOp.fetch 0 1, DBOp.beginTick, DBOp.finishTick 5]
        (SysState.init [(1, 7)] (LRUCache.empty Nat 10 60000))).2 = false := by
  rfl

section SysTraces

theorem sysRun_append : ∀ (l₁ l₂ : List DBOp) (s : SysState),
    sysRun (l₁ ++ l₂) s =
      ((sysRun l₂ (sysRun l₁ s).1).1,
       (sysRun l₁ s).2 ++ (sysRun l₂ (sysRun l₁ s).1).2)
  | [], l₂, s => by simp [sysRun]
  | op :: rest, l₂, s => by
    simp only [List.cons_append, sysRun, List.append_eq]
    rw [sysRun_append rest l₂ (sysStep s op).1]
    simp [List.append_assoc]

theorem sysRun_fetch_attach : ∀ (js : List Nat) (s : SysState) (u : Nat) (g : List Job),
    (mapKeys s.pendingRequests).Nodup →
    mapGet s.pendingRequests u = some g →
    sysRun (fetchOps js u) s =
      ({ s with pendingRequests :=
          mapSet s.pendingRequests u (g ++ js.map (fun i => mkJob i u)) }, [])
  | [], s, u, g, hnd, hg => by
    simp only [fetchOps, List.map_nil, sysRun, List.append_nil]
    rw [mapSet_eq_self_of_get hnd hg]
  | j :: js, s, u, g, hnd, hg => by
    have hstep : fetchStep s (mkJob j u) =
        { s with pendingRequests := mapSet s.pendingRequests u (g ++ [mkJob j u]) } := by
      unfold fetchStep
      simp only [mkJob]
      rw [hg]
    have hnd1 : (mapKeys (mapSet s.pendingRequests u (g ++ [mkJob j u]))).Nodup := by
      rw [mapKeys_mapSet_of_has _ (mapHas_of_mapGet_eq_some hg)]
      exact hnd
    have hg1 : mapGet (mapSet s.pendingRequests u (g ++ [mkJob j u])) u =
        some (g ++ [mkJob j u]) := mapGet_mapSet_self _ _ _
    simp only [fetchOps, List.map_cons, sysRun, sysStep]
    rw [hstep]
    have ihr := sysRun_fetch_attach js
      { s with pendingRequests := mapSet s.pendingRequests u (g ++ [mkJob j u]) }
      u (g ++ [mkJob j u]) hnd1 hg1
    simp only [fetchOps] at ihr
    rw [ihr]
    simp only [mapSet_mapSet, List.append_assoc, List.singleton_append, List.append_nil]

theorem sysRun_fetch_cold (j : Nat) (js : List Nat) (users : List (Nat × Nat))
    (cache : LRUCache Nat) (u : Nat) :
    sysRun (fetchOps (j :: js) u) (SysState.init users cache) =
      ({ processingQueue := [mkJob j u]
         pendingRequests := [(u, mkJob j u :: js.map (fun i => mkJob i u))]
         inFlight := none
         users := users
         cache := cache }, []) := by
  have hstep : fetchStep (SysState.init users cache) (mkJob j u) =
      { processingQueue := [mkJob j u]
        pendingRequests := [(u, [mkJob j u])]
        inFlight := none
        users := users
        cache := cache } := by
    unfold fetchStep SysState.init
    simp [mkJob, mapGet, mapSet, mapHas]
  have hnd1 : (mapKeys ([(u, [mkJob j u])] : List (Nat × List Job))).Nodup := by
    simp [mapKeys]
  have hg1 : mapGet ([(u, [mkJob j u])] : List (Nat × List Job)) u =
      some [mkJob j u] := mapGet_singleton_self u [mkJob j u]
  simp only [fetchOps, List.map_cons, sysRun, sysStep]
  rw [hstep]
  have ihr := sysRun_fetch_attach js
    { processingQueue := [mkJob j u]
      pendingRequests := [(u, [mkJob j u])]
      inFlight := none
      users := users
      cache := cache } u [mkJob j u] hnd1 hg1
  simp only [fetchOps] at ihr
  rw [ihr]
  have hset : mapSet ([(u, [mkJob j u])] : List (Nat × List Job)) u
      ([mkJob j u] ++ js.map (fun i => mkJob i u)) =
      [(u, mkJob j u :: js.map (fun i => mkJob i u))] := by
    simp [mapSet, mapHas, mapGet]
  rw [hset]
  rfl

theorem cacheSetAll_get : ∀ (g : List Job) (c : LRUCache Nat) (u v now : Nat),
    g ≠ [] →
    mapGet (cacheSetAll c u v g now).cache (userKey u) =
      some { value := v, timestamp := now, accessCount := 1, lastAccessed := now }
  | [], _, _, _, _, h => absurd rfl h
  | [jb], c, u, v, now, _ => by
    simp only [cacheSetAll]
    exact LRUCache.set_get_self c (userKey u) v now
  | jb :: jb2 :: rest, c, u, v, now, _ => by
    simp only [cacheSetAll]
    exact cacheSetAll_get (jb2 :: rest) (c.set (userKey u) v now) u v now (by simp)

end SysTraces

section CycleEval

theorem beginTick_eval (q : List Job) (pend : List (Nat × List Job))
    (users : List (Nat × Nat)) (cache : LRUCache Nat) (j : Job) :
    sysRun [DBOp.beginTick]
      { processingQueue := j :: q
        pendingRequests := pend
        inFlight := none
        users := users
        cache := cache } =
      ({ processingQueue := q
         pendingRequests := pend
         inFlight := some j
         users := users
         cache := cache }, []) := by
  simp [sysRun, sysStep, beginStep, Option.isSome]

theorem finishTick_eval (pend : List Job) (users : List (Nat × Nat))
    (cache : LRUCache Nat) (j u : Nat) (now : Nat) :
    sysRun [DBOp.finishTick now]
      { processingQueue := []
        pendingRequests := [(u, pend)]
        inFlight := some (mkJob j u)
        users := users
        cache := cache } =
      (match mapGet users u with
       | none =>
         ({ processingQueue := []
            pendingRequests := []
            inFlight := none
            users := users
            cache := cache },
          Event.lookup u :: pend.map (fun jb => Event.rejectJob jb.jobId u))
       | some v =>
         ({ processingQueue := []
            pendingRequests := []
            inFlight := none
            users := users
            cache := cacheSetAll cache u v pend now },
          Event.lookup u :: (pend.map (fun jb => Event.resolveJob jb.jobId v) ++
            pend.map (fun jb => Event.cacheSet jb.jobId u v)))) := by
  cases hu : mapGet users u with
  | none =>
    simp [sysRun, sysStep, finishStep, hu, mapGet, mapDelete]
  | some v =>
    simp [sysRun, sysStep, finishStep, hu, mapGet, mapDelete]

end CycleEval

section CycleEvalMain

theorem cycle_eval (users : List (Nat × Nat)) (cache : LRUCache Nat) (u j : Nat)
    (js₁ js₂ : List Nat) (now : Nat) :
    sysRun (fetchOps (j :: js₁) u ++
        ([DBOp.beginTick] ++ (fetchOps js₂ u ++ [DBOp.finishTick now])))
      (SysState.init users cache) =
      (match mapGet users u with
       | none =>
         ({ processingQueue := []
            pendingRequests := []
            inFlight := none
            users := users
            cache := cache },
          Event.lookup u :: ((j :: js₁) ++ js₂).map (fun i => Event.rejectJob i u))
       | some v =>
         ({ processingQueue := []
            pendingRequests := []
            inFlight := none
            users := users
            cache := cacheSetAll cache u v
              (((j :: js₁) ++ js₂).map (fun i => mkJob i u)) now },
          Event.lookup u ::
            (((j :: js₁) ++ js₂).map (fun i => Event.resolveJob i v) ++
             ((j :: js₁) ++ js₂).map (fun i => Event.cacheSet i u v)))) := by
  have h1 := sysRun_fetch_cold j js₁ users cache u
  have h2 := beginTick_eval []
    [(u, mkJob j u :: js₁.map (fun i => mkJob i u))] users cache (mkJob j u)
  have h3 := sysRun_fetch_attach js₂
    { processingQueue := []
      pendingRequests := [(u, mkJob j u :: js₁.map (fun i => mkJob i u))]
      inFlight := some (mkJob j u)
      users := users
      cache := cache } u (mkJob j u :: js₁.map (fun i => mkJob i u))
    (by simp [mapKeys]) (mapGet_singleton_self _ _)
  have h4 : mapSet [(u, mkJob j u :: js₁.map (fun i => mkJob i u))] u
      ((mkJob j u :: js₁.map (fun i => mkJob i u)) ++ js₂.map (fun i => mkJob i u)) =
      [(u, (mkJob j u :: js₁.map (fun i => mkJob i u)) ++
        js₂.map (fun i => mkJob i u))] := by
    simp [mapSet, mapHas, mapGet]
  have h5 := finishTick_eval
    ((mkJob j u :: js₁.map (fun i => mkJob i u)) ++ js₂.map (fun i => mkJob i u))
    users cache j u now
  rw [sysRun_append, h1]
  dsimp only
  rw [sysRun_append, h2]
  dsimp only
  rw [sysRun_append, h3]
  dsimp only
  rw [h4, h5]
  cases hu : mapGet users u <;>
    simp [hu, List.map_append, List.map_map, List.cons_append, Function.comp] <;>
    rfl

end CycleEvalMain

section TraceHelpers

theorem countP_isLookup_map_reject (l : List Nat) (u : Nat) :
    (l.map (fun i => Event.rejectJob i u)).countP isLookup = 0 := by
  induction l with
  | nil => rfl
  | cons a r ih => simp [List.countP_cons, isLookup, ih]

theorem countP_isLookup_map_resolve (l : List Nat) (v : Nat) :
    (l.map (fun i => Event.resolveJob i v)).countP isLookup = 0 := by
  induction l with
  | nil => rfl
  | cons a r ih => simp [List.countP_cons, isLookup, ih]

theorem countP_isLookup_map_cacheSet (l : List Nat) (u v : Nat) :
    (l.map (fun i => Event.cacheSet i u v)).countP isLookup = 0 := by
  induction l with
  | nil => rfl
  | cons a r ih => simp [List.countP_cons, isLookup, ih]

theorem filter_isCompletion_map_reject (l : List Nat) (u : Nat) :
    (l.map (fun i => Event.rejectJob i u)).filter isCompletion =
      l.map (fun i => Event.rejectJob i u) := by
  induction l with
  | nil => rfl
  | cons a r ih => simp [List.filter_cons, isCompletion, ih]

theorem filter_isCompletion_map_resolve (l : List Nat) (v : Nat) :
    (l.map (fun i => Event.resolveJob i v)).filter isCompletion =
      l.map (fun i => Event.resolveJob i v) := by
  induction l with
  | nil => rfl
  | cons a r ih => simp [List.filter_cons, isCompletion, ih]

theorem filter_isCompletion_map_cacheSet (l : List Nat) (u v : Nat) :
    (l.map (fun i => Event.cacheSet i u v)).filter isCompletion = [] := by
  induction l with
  | nil => rfl
  | cons a r ih => simp [List.filter_cons, isCompletion, ih]

end TraceHelpers

/-- C1: for any number of `Fetch(key)` calls arriving for a cold key —
some before the worker picks the key up and some while its backend call
is in flight, but all before it resolves — the backing store is
consulted exactly once in the whole run, and the completion events are
exactly one per caller, in arrival order, all carrying the identical
value (or all carrying the identical not-found error). -/
theorem claim_C1_coalesced_fetch (users : List (Nat × Nat)) (cache : LRUCache Nat)
    (u j : Nat) (js₁ js₂ : List Nat) (now : Nat) :
    ((sysRun (fetchOps (j :: js₁) u ++
        ([DBOp.beginTick] ++ (fetchOps js₂ u ++ [DBOp.finishTick now])))
      (SysState.init users cache)).2.countP isLookup = 1) ∧
    ((sysRun (fetchOps (j :: js₁) u ++
        ([DBOp.beginTick] ++ (fetchOps js₂ u ++ [DBOp.finishTick now])))
      (SysState.init users cache)).2.filter isCompletion =
      (match mapGet users u with
       | none => ((j :: js₁) ++ js₂).map (fun i => Event.rejectJob i u)
       | some v => ((j :: js₁) ++ js₂).map (fun i => Event.resolveJob i v))) := by
  rw [cycle_eval]
  cases hu : mapGet users u with
  | none =>
    simp only
    constructor
    · simp [List.countP_cons, isLookup, countP_isLookup_map_reject]
    · simp [List.filter_cons, isCompletion, filter_isCompletion_map_reject]
  | some v =>
    simp only
    constructor
    · simp [List.countP_cons, List.countP_append, isLookup,
        countP_isLookup_map_resolve, countP_isLookup_map_cacheSet]
    · simp [List.filter_cons, List.filter_append, isCompletion,
        filter_isCompletion_map_resolve, filter_isCompletion_map_cacheSet]

/-- C7, amended: in a successful fetch cycle the key is dequeued when the
worker picks it up; after the backend call resolves, every waiter is
completed with the fetched value in FIFO attachment order, the
PendingFetch is removed, and only then does each resumed route handler
populate the CacheStore with the result (one `set` per waiter, after its
completion, not before); at the end of the cycle the cache does hold the
fetched value. -/
theorem claim_C7_amended (users : List (Nat × Nat)) (cache : LRUCache Nat)
    (u v j : Nat) (js : List Nat) (now : Nat) (hu : mapGet users u = some v) :
    ((sysRun (fetchOps (j :: js) u ++ [DBOp.beginTick, DBOp.finishTick now])
      (SysState.init users cache)).2 =
      Event.lookup u :: ((j :: js).map (fun i => Event.resolveJob i v) ++
        (j :: js).map (fun i => Event.cacheSet i u v))) ∧
    ((sysRun (fetchOps (j :: js) u ++ [DBOp.beginTick, DBOp.finishTick now])
      (SysState.init users cache)).1.pendingRequests = []) ∧
    ((sysRun (fetchOps (j :: js) u ++ [DBOp.beginTick, DBOp.finishTick now])
      (SysState.init users cache)).1.processingQueue = []) ∧
    ((sysRun (fetchOps (j :: js) u ++ [DBOp.beginTick, DBOp.finishTick now])
      (SysState.init users cache)).1.inFlight = none) ∧
    (mapGet (sysRun (fetchOps (j :: js) u ++ [DBOp.beginTick, DBOp.finishTick now])
      (SysState.init users cache)).1.cache.cache (userKey u) =
      some { value := v, timestamp := now, accessCount := 1, lastAccessed := now }) := by
  have hc := cycle_eval users cache u j js [] now
  rw [hu] at hc
  simp only [show fetchOps ([] : List Nat) u = [] from rfl, List.nil_append,
    List.append_nil, List.singleton_append] at hc
  refine ⟨?_, ?_, ?_, ?_, ?_⟩
  · rw [hc]
  · rw [hc]
  · rw [hc]
  · rw [hc]
  · rw [hc]
    exact cacheSetAll_get _ cache u v now (by simp)

/-- Witness for the amended C7 at a concrete successful cycle. -/
theorem claim_C7_amended_witness :
    ((sysRun (fetchOps [0] 1 ++ [DBOp.beginTick, DBOp.finishTick 99])
      (SysState.init [(1, 7)] (LRUCache.empty Nat 1000 60000))).2 =
      Event.lookup 1 :: (([0] : List Nat).map (fun i => Event.resolveJob i 7) ++
        ([0] : List Nat).map (fun i => Event.cacheSet i 1 7))) ∧
    ((sysRun (fetchOps [0] 1 ++ [DBOp.beginTick, DBOp.finishTick 99])
      (SysState.init [(1, 7)] (LRUCache.empty Nat 1000 60000))).1.pendingRequests = []) ∧
    ((sysRun (fetchOps [0] 1 ++ [DBOp.beginTick, DBOp.finishTick 99])
      (SysState.init [(1, 7)] (LRUCache.empty Nat 1000 60000))).1.processingQueue = []) ∧
    ((sysRun (fetchOps [0] 1 ++ [DBOp.beginTick, DBOp.finishTick 99])
      (SysState.init [(1, 7)] (LRUCache.empty Nat 1000 60000))).1.inFlight = none) ∧
    (mapGet (sysRun (fetchOps [0] 1 ++ [DBOp.beginTick, DBOp.finishTick 99])
      (SysState.init [(1, 7)] (LRUCache.empty Nat 1000 60000))).1.cache.cache (userKey 1) =
      some { value := 7, timestamp := 99, accessCount := 1, lastAccessed := 99 }) :=
  claim_C7_amended [(1, 7)] (LRUCache.empty Nat 1000 60000) 1 7 0 [] 99 rfl

/-- C8: a failed fetch cycle (key absent from the backing store) rejects
every waiter with the same not-found error in FIFO order, clears the
pending state and leaves the cache untouched, and a subsequent
`Fetch` of the same key starts a fresh cycle that consults the backing
store again — the run's trace contains a second `lookup`, so the failure
is not negatively cached. -/
theorem claim_C8_failed_cycle (users : List (Nat × Nat)) (cache : LRUCache Nat)
    (u j j' : Nat) (js : List Nat) (t₁ t₂ : Nat) (hu : mapGet users u = none) :
    ((sysRun ((fetchOps (j :: js) u ++ [DBOp.beginTick, DBOp.finishTick t₁]) ++
        (fetchOps [j'] u ++ [DBOp.beginTick, DBOp.finishTick t₂]))
      (SysState.init users cache)).2 =
      (Event.lookup u :: (j :: js).map (fun i => Event.rejectJob i u)) ++
        [Event.lookup u, Event.rejectJob j' u]) ∧
    ((sysRun ((fetchOps (j :: js) u ++ [DBOp.beginTick, DBOp.finishTick t₁]) ++
        (fetchOps [j'] u ++ [DBOp.beginTick, DBOp.finishTick t₂]))
      (SysState.init users cache)).1 = SysState.init users cache) := by
  have hc1 := cycle_eval users cache u j js [] t₁
  rw [hu] at hc1
  simp only [show fetchOps ([] : List Nat) u = [] from rfl, List.nil_append,
    List.append_nil, List.singleton_append] at hc1
  have hc2 := cycle_eval users cache u j' [] [] t₂
  rw [hu] at hc2
  simp only [show fetchOps ([] : List Nat) u = [] from rfl, List.nil_append,
    List.append_nil, List.singleton_append, SysState.init] at hc2
  rw [sysRun_append, hc1]
  dsimp only
  rw [hc2]
  constructor
  · rfl
  · rfl

/-- Witness for C8 at a concrete failed key. -/
theorem claim_C8_failed_cycle_witness :
    ((sysRun ((fetchOps [0] 999 ++ [DBOp.beginTick, DBOp.finishTick 10]) ++
        (fetchOps [5] 999 ++ [DBOp.beginTick, DBOp.finishTick 20]))
      (SysState.init [(1, 7)] (LRUCache.empty Nat 1000 60000))).2 =
      (Event.lookup 999 :: ([0] : List Nat).map (fun i => Event.rejectJob i 999)) ++
        [Event.lookup 999, Event.rejectJob 5 999]) ∧
    ((sysRun ((fetchOps [0] 999 ++ [DBOp.beginTick, DBOp.finishTick 10]) ++
        (fetchOps [5] 999 ++ [DBOp.beginTick, DBOp.finishTick 20]))
      (SysState.init [(1, 7)] (LRUCache.empty Nat 1000 60000))).1 =
      SysState.init [(1, 7)] (LRUCache.empty Nat 1000 60000)) :=
  claim_C8_failed_cycle [(1, 7)] (LRUCache.empty Nat 1000 60000) 999 0 5 [] 10 20 rfl
